import Mathlib

/-!
# circuitz: the logic-graph core of `circuitz.cpp`

A shallow embedding of the node/connection data model, of `State()` for every
node class, of the graph mutations performed by `circuitz()` and
`SimpleNode::RenderUI` (new connection, connection removal, node deletion,
resizing of the input slots), and of `ClockNode::RenderUI`.

Modelling conventions.

* A `Node *` is a natural number (the address of the object); the global
  `nodes` vector together with the objects it points to is a `List Node`,
  each `Node` carrying its own address in the field `id`.  Dereferencing an
  address that is not in the list is a dangling access.
* A `const char *` slot descriptor is a symbolic address `CStr`; pointer
  comparison is equality of `CStr`, and `CStr.chars` is what `strcmp` reads.
* `int` variables are unbounded integers: every counter in the program is
  bounded by the length of a connection list, which is far below `2 ^ 31`.
* `State()` recurses through the graph without any cycle guard, so the model
  takes a fuel argument; `none` stands for a query that does not return
  (fuel exhausted) or that follows a dangling `Node *`.
* Wall-clock time is an integer number of milliseconds, read once per query.
-/

namespace Circuitz

/-! ## Data model -/

/-- A C string pointer: either `&inputLabels[offset]` or the address of a
string literal (identified by its text). -/
inductive CStr where
  | inputLabels (offset : Nat)
  | literal (text : String)
  deriving DecidableEq, Repr

/-- The table `inputLabels[] = "A\0B\0...Z\0"` read as a C string starting at
`offset`: the letter at an even offset below 52, the empty string at a NUL. -/
def inputLabelsAt (offset : Nat) : String :=
  if offset < 52 ∧ offset % 2 = 0 then String.singleton (Char.ofNat (65 + offset / 2)) else ""

/-- The NUL-terminated string a `const char *` points to (what `strcmp` reads). -/
def CStr.chars : CStr → String
  | .inputLabels offset => inputLabelsAt offset
  | .literal text => text

/-- The function `strcmp(a, b) == 0`. -/
def strcmpEq (a b : CStr) : Bool := a.chars == b.chars

/-- The struct `Connection`; the derived equality is `Connection::operator==`
(all four fields, pointers compared as pointers). -/
structure Connection where
  input_node : Nat
  input_slot : CStr
  output_node : Nat
  output_slot : CStr
  deriving DecidableEq, Repr

/-- The enumerator `NodeSlotPower = 1`. -/
def NodeSlotPower : Int := 1

/-- The struct `ImNodes::Ez::SlotInfo`: a title and a kind tag. -/
structure SlotInfo where
  title : CStr
  kind : Int
  deriving DecidableEq, Repr

/-- The enum class `PowerState`. -/
inductive PowerState where
  | off
  | on
  | broken
  deriving DecidableEq, Repr

/-- The seven instantiations of the macro `DefineBasicNode`. -/
inductive BasicName where
  | Or
  | Nor
  | And
  | Nand
  | Xor
  | Xnor
  | Not
  deriving DecidableEq, Repr

/-- The dynamic class of a node with the data members its class adds to
`Node`: `SimpleNode` subclasses carry `numberInputs` and `defaultInputs`,
`SwitchNode` carries `powered`, `ClockNode` carries `cycle` and `last_cycle`. -/
inductive NodeClass where
  | Basic (name : BasicName) (numberInputs defaultInputs : Int)
  | Switch (powered : Bool)
  | Clock (cycle last_cycle : Int)
  | Light
  | Test
  deriving DecidableEq, Repr

/-- The class `Node` (address, dynamic class, and the members the logic core
reads: `selected`, `connections`, `input_slots`, `output_slots`). -/
structure Node where
  id : Nat
  cls : NodeClass
  selected : Bool
  connections : List Connection
  input_slots : List SlotInfo
  output_slots : List SlotInfo
  deriving DecidableEq, Repr

/-- The global `std::vector<Node *> nodes` with the objects it points to. -/
abbrev Graph := List Node

/-- Dereference a `Node *`. -/
def Graph.deref (G : Graph) (p : Nat) : Option Node :=
  G.find? (fun n => n.id == p)

/-- The connection list of the node at address `p` (empty when dangling). -/
def Graph.connectionsOf (G : Graph) (p : Nat) : List Connection :=
  match G.deref p with
  | some n => n.connections
  | none => []

/-! ## `State()` -/

/-- The `onBlock` argument of `DefineBasicNode`. -/
def BasicName.onBlock : BasicName → Int → Int
  | .Or, _ => 1
  | .Nor, _ => 1
  | .And, state => if state ≠ 0 then 1 else 0
  | .Nand, state => if state ≠ 0 then 1 else 0
  | .Xor, state => state + 1
  | .Xnor, state => state + 1
  | .Not, _ => 1

/-- The `offBlock` argument of `DefineBasicNode`. -/
def BasicName.offBlock : BasicName → Int → Int
  | .Or, state => if state ≠ 0 then 1 else 0
  | .Nor, state => if state ≠ 0 then 1 else 0
  | .And, _ => 0
  | .Nand, _ => 0
  | .Xor, state => state
  | .Xnor, state => state
  | .Not, _ => 0

/-- The `resultTransformBlock` argument of `DefineBasicNode`. -/
def BasicName.resultTransformBlock : BasicName → Int → Int
  | .Or, state => state
  | .Nor, state => if state = 0 then 1 else 0
  | .And, state => state
  | .Nand, state => if state = 0 then 1 else 0
  | .Xor, state => if state.tmod 2 = 1 then 1 else 0
  | .Xnor, state => if state.tmod 2 = 0 then 1 else 0
  | .Not, state => if state = 0 then 1 else 0

/-- The body of `State()` generated by `DefineBasicNode`, as a loop over the
remaining connections carrying the locals `state` and `nodesCovered`.
`this` is the address of the gate, `up p` the result of `((Node *)p)->State()`. -/
def basicState (name : BasicName) (this : Nat) (numberInputs : Int)
    (up : Nat → Option PowerState) : List Connection → Int → Int → Option PowerState
  | [], state, nodesCovered =>
    if nodesCovered ≠ numberInputs then some PowerState.broken
    else if name.resultTransformBlock state ≠ 0 then some PowerState.on
    else some PowerState.off
  | x :: rest, state, nodesCovered =>
    if x.input_node = this then
      match up x.output_node with
      | none => none
      | some PowerState.on =>
        basicState name this numberInputs up rest
          (if nodesCovered + 1 = 1 then 1 else name.onBlock state) (nodesCovered + 1)
      | some PowerState.off =>
        basicState name this numberInputs up rest
          (if nodesCovered + 1 = 1 then 0 else name.offBlock state) (nodesCovered + 1)
      | some PowerState.broken => some PowerState.broken
    else basicState name this numberInputs up rest state nodesCovered

/-- The method `ClockNode::State` at wall-clock time `now` (milliseconds). -/
def clockState (cycle last_cycle now : Int) : PowerState :=
  if ((now - last_cycle).tdiv cycle).tmod 2 = 0 then PowerState.on else PowerState.off

/-- The virtual call `((Node *)p)->State()` in graph `G` at time `now`. -/
def State : Nat → Graph → Int → Nat → Option PowerState
  | 0, _, _, _ => none
  | fuel + 1, G, now, p =>
    match G.deref p with
    | none => none
    | some node =>
      match node.cls with
      | .Basic name numberInputs _ =>
        basicState name p numberInputs (State fuel G now) node.connections 0 0
      | .Switch powered => some (if powered then PowerState.on else PowerState.off)
      | .Clock cycle last_cycle => some (clockState cycle last_cycle now)
      | .Light =>
        match node.connections with
        | [] => some PowerState.broken
        | x :: _ => State fuel G now x.output_node
      | .Test => some PowerState.broken

/-! ## Graph mutation -/

/-- Apply `f` to the object at address `p` (a write through a `Node *`). -/
def Graph.modify (G : Graph) (p : Nat) (f : Node → Node) : Graph :=
  G.map (fun n => if n.id = p then f n else n)

/-- The method `Node::DeleteConnection`: erase the first entry that compares
equal to `connection`, if there is one. -/
def Node.DeleteConnection (node : Node) (connection : Connection) : Node :=
  { node with connections := node.connections.erase connection }

/-- The call `((Node *)p)->DeleteConnection(connection)`. -/
def Graph.DeleteConnection (G : Graph) (p : Nat) (connection : Connection) : Graph :=
  G.modify p (fun n => n.DeleteConnection connection)

/-- The call `((Node *)p)->connections.push_back(connection)`. -/
def Graph.push_back (G : Graph) (p : Nat) (connection : Connection) : Graph :=
  G.modify p (fun n => { n with connections := n.connections ++ [connection] })

/-- The block "Store new connections when they are created" of `circuitz()`,
on a frame where `ImNodes::GetNewConnection` fills in `new_connection` and
returns true. -/
def newConnection (G : Graph) (new_connection : Connection) : Graph :=
  (G.push_back new_connection.input_node new_connection).push_back
    new_connection.output_node new_connection

/-! ### Range-for over a vector that the loop body erases from

`Connection` is trivially copyable and `std::vector::erase` never
reallocates: it moves the tail one cell down and decrements the size, so the
cell that held the last live entry keeps its value.  A range-for caches
`begin()` and `end()`, so it visits the storage cells `0 .. n0 - 1` of the
vector as it stood on entry, reading whatever each cell holds by then.  The
storage of the vector under iteration is its live entries followed by
`stale`, the cells left behind the end. -/

/-- The storage cell `index` of the `connections` vector of node `this`. -/
def cell (G : Graph) (this : Nat) (stale : List Connection) (index : Nat) : Option Connection :=
  (G.connectionsOf this ++ stale)[index]?

/-- The cells behind the end of the `connections` vector of node `this`
after `((Node *)p)->DeleteConnection(connection)` ran in graph `G`. -/
def staleAfter (G : Graph) (this : Nat) (stale : List Connection) (p : Nat)
    (connection : Connection) : List Connection :=
  if p = this ∧ connection ∈ G.connectionsOf this then
    match (G.connectionsOf this).getLast? with
    | some last => last :: stale
    | none => stale
  else stale

/-- The receiver of `DeleteConnection` picked by the `if`/`else` of the
delete branch: `input_node` when `connection.output_node == node`, otherwise
`output_node`. -/
def otherEnd (node : Nat) (connection : Connection) : Nat :=
  if connection.output_node = node then connection.input_node else connection.output_node

/-- The loop `for (auto &connection : node->connections)` of the delete
branch of `circuitz()`: `remaining` cells are left to visit, the next one is
`index`. -/
def deleteLoop (node : Nat) : Nat → Nat → Graph → List Connection → Graph
  | 0, _, G, _ => G
  | remaining + 1, index, G, stale =>
    match cell G node stale index with
    | none => G
    | some connection =>
      deleteLoop node remaining (index + 1)
        (G.DeleteConnection (otherEnd node connection) connection)
        (staleAfter G node stale (otherEnd node connection) connection)

/-- The tail of the per-frame node loop of `circuitz()` for the node at
position `it` of `nodes`: when the node is selected and the Delete key is
pressed, its connections are deleted from the other endpoints, its own list
is cleared, the object is freed and `nodes.erase(it)` is called. -/
def deleteNode (G : Graph) (it : Nat) (deleteKey : Bool) : Graph :=
  match G[it]? with
  | none => G
  | some node =>
    if node.selected && deleteKey then
      ((deleteLoop node.id node.connections.length 0 G []).modify node.id
        (fun n => { n with connections := [] })).eraseIdx it
    else G

/-- The conversion of an `int` to `size_t` in a mixed comparison. -/
def toSizeT (x : Int) : Int := x % 2 ^ 64

/-- The clamp of `numberInputs` at the top of `SimpleNode::RenderUI`. -/
def clampInputs (numberInputs defaultInputs : Int) : Int :=
  if numberInputs > 26 then 26
  else if numberInputs < defaultInputs then defaultInputs
  else numberInputs

/-- The inner loop `for (auto &c : connections)` of the shrink branch of
`SimpleNode::RenderUI`, for the discarded slot with the given `title`.  The
reference `c` is read again after the first `DeleteConnection` call. -/
def shrinkInner (this : Nat) (title : CStr) : Nat → Nat → Graph → List Connection → Graph
  | 0, _, G, _ => G
  | remaining + 1, index, G, stale =>
    match cell G this stale index with
    | none => G
    | some c =>
      if strcmpEq c.input_slot title then
        let G1 := G.DeleteConnection c.output_node c
        let stale1 := staleAfter G this stale c.output_node c
        match cell G1 this stale1 index with
        | none => G1
        | some c2 =>
          shrinkInner this title remaining (index + 1)
            (G1.DeleteConnection c2.input_node c2)
            (staleAfter G1 this stale1 c2.input_node c2)
      else shrinkInner this title remaining (index + 1) G stale

/-- The outer loop `for (int i = input_slots.size() - 1; i >= numberInputs; i--)`
over the slot indices listed in `indices` (in decreasing order). -/
def shrinkOuter (this : Nat) (input_slots : List SlotInfo) : List Nat → Graph → Graph
  | [], G => G
  | i :: rest, G =>
    match input_slots[i]? with
    | none => G
    | some slot =>
      shrinkOuter this input_slots rest
        (shrinkInner this slot.title (G.connectionsOf this).length 0 G [])

/-- The slots appended by the grow branch: `{&inputLabels[i * 2], NodeSlotPower}`
for `i` from `size` up to `numberInputs - 1`. -/
def appendedSlots (size numberInputs : Nat) : List SlotInfo :=
  (List.range' size (numberInputs - size)).map
    (fun i => { title := CStr.inputLabels (i * 2), kind := NodeSlotPower })

/-- The constructor `SimpleNode::SimpleNode` for a node allocated at `id`. -/
def SimpleNode.new (id : Nat) (name : BasicName) (defaultInputCount : Int) : Node :=
  { id := id
    cls := NodeClass.Basic name defaultInputCount defaultInputCount
    selected := false
    connections := []
    input_slots := appendedSlots 0 defaultInputCount.toNat
    output_slots := [{ title := CStr.literal "Out", kind := NodeSlotPower }] }

/-- The method `SimpleNode::RenderUI` of the gate at address `this`, up to
the final display of `State()`.  `edit = some v` is a frame on which
`ImGui::InputInt` stored `v` in `numberInputs` and returned true. -/
def SimpleNode.RenderUI (G : Graph) (this : Nat) (edit : Option Int) : Graph :=
  match G.deref this, edit with
  | some node, some v =>
    match node.cls with
    | NodeClass.Basic name _ defaultInputs =>
      let numberInputs := clampInputs v defaultInputs
      let size := node.input_slots.length
      let G0 := G.modify this
        (fun n => { n with cls := NodeClass.Basic name numberInputs defaultInputs })
      if (size : Int) > toSizeT numberInputs then
        (shrinkOuter this node.input_slots
            (List.range' numberInputs.toNat (size - numberInputs.toNat)).reverse G0).modify this
          (fun n => { n with input_slots := n.input_slots.take numberInputs.toNat })
      else if (size : Int) < toSizeT numberInputs then
        G0.modify this
          (fun n => { n with
            input_slots := n.input_slots ++ appendedSlots size numberInputs.toNat })
      else G0
    | _ => G
  | _, _ => G

/-! ## Auxiliary notions used to state the properties of `State()` -/

/-- The incoming connections of the node at address `this`: the entries of
its list that pass the test `x.input_node == this`, in list order. -/
def incoming (this : Nat) (conns : List Connection) : List Connection :=
  conns.filter (fun x => x.input_node = this)

/-- The results of the upstream `State()` calls of a gate, in list order. -/
def upstream (this : Nat) (up : Nat → Option PowerState) (conns : List Connection) :
    List (Option PowerState) :=
  (incoming this conns).map (fun x => up x.output_node)

/-- The loop of `basicState` replayed on the list of upstream results. -/
def foldStates (name : BasicName) (numberInputs : Int) :
    List (Option PowerState) → Int → Int → Option PowerState
  | [], state, nodesCovered =>
    if nodesCovered ≠ numberInputs then some PowerState.broken
    else if name.resultTransformBlock state ≠ 0 then some PowerState.on
    else some PowerState.off
  | none :: _, _, _ => none
  | some PowerState.on :: rest, state, nodesCovered =>
    foldStates name numberInputs rest
      (if nodesCovered + 1 = 1 then 1 else name.onBlock state) (nodesCovered + 1)
  | some PowerState.off :: rest, state, nodesCovered =>
    foldStates name numberInputs rest
      (if nodesCovered + 1 = 1 then 0 else name.offBlock state) (nodesCovered + 1)
  | some PowerState.broken :: _, _, _ => some PowerState.broken

/-- The number of `on` results in a list of upstream results. -/
def onCount (l : List (Option PowerState)) : Nat :=
  l.count (some PowerState.on)

/-! ## Example graphs -/

/-- The constructor `SwitchNode::SwitchNode` for a node allocated at `id`,
with the flag `powered` and the connection list set afterwards. -/
def exampleSwitch (id : Nat) (powered : Bool) (connections : List Connection) : Node :=
  { id := id
    cls := NodeClass.Switch powered
    selected := false
    connections := connections
    input_slots := []
    output_slots := [{ title := CStr.literal "Power", kind := NodeSlotPower }] }

/-- A gate built by `SimpleNode::SimpleNode`, resized to `numberInputs`
slots, holding the given connection list. -/
def exampleGate (id : Nat) (name : BasicName) (defaultInputs numberInputs : Nat)
    (connections : List Connection) : Node :=
  { SimpleNode.new id name defaultInputs with
    cls := NodeClass.Basic name numberInputs defaultInputs
    input_slots := appendedSlots 0 numberInputs
    connections := connections }

/-- The connection from the `Power` slot of the switch at `source` to input
slot number `slot` of the gate at `gate`. -/
def wire (gate slot source : Nat) : Connection :=
  { input_node := gate
    input_slot := CStr.inputLabels (slot * 2)
    output_node := source
    output_slot := CStr.literal "Power" }

/-- A two-input gate at address 1 fed by the switches at addresses 2 and 3. -/
def twoInputGraph (name : BasicName) (a b : Bool) : Graph :=
  [exampleGate 1 name 2 2 [wire 1 0 2, wire 1 1 3],
   exampleSwitch 2 a [wire 1 0 2],
   exampleSwitch 3 b [wire 1 1 3]]

/-- A three-input gate at address 1 fed by the switches at addresses 2, 3, 4. -/
def threeInputGraph (name : BasicName) (a b c : Bool) : Graph :=
  [exampleGate 1 name 2 3 [wire 1 0 2, wire 1 1 3, wire 1 2 4],
   exampleSwitch 2 a [wire 1 0 2],
   exampleSwitch 3 b [wire 1 1 3],
   exampleSwitch 4 c [wire 1 2 4]]

/-- The constructor `TestNode::TestNode` for a node allocated at `id`, with
the connection list set afterwards. -/
def exampleTest (id : Nat) (connections : List Connection) : Node :=
  { id := id
    cls := NodeClass.Test
    selected := false
    connections := connections
    input_slots := ["1", "2", "3", "4", "5"].map
      (fun t => { title := CStr.literal t, kind := NodeSlotPower })
    output_slots := ["1", "2", "3", "4", "5"].map
      (fun t => { title := CStr.literal t, kind := NodeSlotPower }) }

/-- The constructor `LightNode::LightNode` for a node allocated at `id`, with
the connection list set afterwards. -/
def exampleLight (id : Nat) (connections : List Connection) : Node :=
  { id := id
    cls := NodeClass.Light
    selected := false
    connections := connections
    input_slots := [{ title := CStr.literal "Power", kind := NodeSlotPower }]
    output_slots := [] }

/-- The connection from output `1` of the Test node at `source` to input slot
number `slot` of the gate at `gate`. -/
def testWire (gate slot source : Nat) : Connection :=
  { input_node := gate
    input_slot := CStr.inputLabels (slot * 2)
    output_node := source
    output_slot := CStr.literal "1" }

/-- A two-input gate at address 1: input A from the switch at 2, input B from
the Test node at 3. -/
def brokenInputGraph (name : BasicName) (a : Bool) : Graph :=
  [exampleGate 1 name 2 2 [wire 1 0 2, testWire 1 1 3],
   exampleSwitch 2 a [wire 1 0 2],
   exampleTest 3 [testWire 1 1 3]]

/-- A two-input And gate at address 1 with both connections on input A (from
the switches at 2 and 3, both on) and nothing on input B. -/
def sameSlotGraph : Graph :=
  [exampleGate 1 BasicName.And 2 2 [wire 1 0 2, wire 1 0 3],
   exampleSwitch 2 true [wire 1 0 2],
   exampleSwitch 3 true [wire 1 0 3]]

/-- A two-input And gate at address 1 with only input A connected, to the
switch at 2 (on). -/
def halfWiredGraph : Graph :=
  [exampleGate 1 BasicName.And 2 2 [wire 1 0 2],
   exampleSwitch 2 true [wire 1 0 2]]

/-- A Not gate at address 1 fed by the switch at address 2. -/
def notGraph (a : Bool) : Graph :=
  [exampleGate 1 BasicName.Not 1 1 [wire 1 0 2],
   exampleSwitch 2 a [wire 1 0 2]]

/-- The connection from the switch at `source` to the Light at `light`. -/
def lightWire (light source : Nat) : Connection :=
  { input_node := light
    input_slot := CStr.literal "Power"
    output_node := source
    output_slot := CStr.literal "Power" }

/-- A Light at address 1 whose list holds a connection from the switch at 2
followed by one from the switch at 3. -/
def lightGraph (a b : Bool) : Graph :=
  [exampleLight 1 [lightWire 1 2, lightWire 1 3],
   exampleSwitch 2 a [lightWire 1 2],
   exampleSwitch 3 b [lightWire 1 3]]

/-- The number of input slots of `node` to which at least one incoming
connection of its list is bound. -/
def coveredSlots (node : Node) : Nat :=
  (node.input_slots.filter (fun s =>
    (incoming node.id node.connections).any (fun x => x.input_slot = s.title))).length

/-! ## Bookkeeping predicates -/

/-- The connection `c` has the node at address `p` as an endpoint. -/
def Connection.touches (c : Connection) (p : Nat) : Bool :=
  decide (c.input_node = p) || decide (c.output_node = p)

/-- Distinct objects have distinct addresses. -/
abbrev DistinctIds (G : Graph) : Prop := (G.map (fun n => n.id)).Nodup

/-- Every entry of a node's list has that node as one of its endpoints. -/
abbrev OwnsEntries (G : Graph) : Prop :=
  ∀ m ∈ G, ∀ c ∈ m.connections, c.input_node = m.id ∨ c.output_node = m.id

/-- Every entry of a node's list occurs equally often in the list of each
node of the graph that is one of its endpoints. -/
abbrev Balanced (G : Graph) : Prop :=
  ∀ m ∈ G, ∀ c ∈ m.connections, ∀ m2 ∈ G,
    (m2.id = c.input_node ∨ m2.id = c.output_node) →
      m2.connections.count c = m.connections.count c

/-- Every entry of a node's list is present in the list of its `input_node`
and in the list of its `output_node`, both being nodes of the graph. -/
abbrev RecordedAtBothEnds (G : Graph) : Prop :=
  ∀ m ∈ G, ∀ c ∈ m.connections,
    (∃ mi ∈ G, mi.id = c.input_node ∧ c ∈ mi.connections) ∧
    (∃ mo ∈ G, mo.id = c.output_node ∧ c ∈ mo.connections)

/-- No list of the graph holds a connection with the node at `p` as an
endpoint. -/
abbrev NoReference (G : Graph) (p : Nat) : Prop :=
  ∀ m ∈ G, ∀ c ∈ m.connections, c.input_node ≠ p ∧ c.output_node ≠ p

/-- A Not gate at address 1 whose list holds the connection from the switch
at 2 twice, while the (selected) switch holds it once. -/
def doubleEntryGraph : Graph :=
  [exampleGate 1 BasicName.Not 1 1 [wire 1 0 2, wire 1 0 2],
   { exampleSwitch 2 true [wire 1 0 2] with selected := true }]

/-- The connection from output `1` of the Test node at `node` to its own
input `1`. -/
def selfLoop (node : Nat) : Connection :=
  { input_node := node
    input_slot := CStr.literal "1"
    output_node := node
    output_slot := CStr.literal "1" }

/-- The connection from output `2` of the Test node at `source` to input A of
the gate at `gate`. -/
def testWire2 (gate source : Nat) : Connection :=
  { input_node := gate
    input_slot := CStr.inputLabels 0
    output_node := source
    output_slot := CStr.literal "2" }

/-- A selected Test node at address 1 whose list holds a self-loop, the
connection to the Not gate at 2, and the self-loop again. -/
def selfLoopGraph : Graph :=
  [{ exampleTest 1 [selfLoop 1, testWire2 2 1, selfLoop 1] with selected := true },
   exampleGate 2 BasicName.Not 1 1 [testWire2 2 1]]

/-- The two-switch graph with the switch at address 2 selected. -/
def selectedSwitchGraph : Graph :=
  [exampleGate 1 BasicName.And 2 2 [wire 1 0 2, wire 1 1 3],
   { exampleSwitch 2 true [wire 1 0 2] with selected := true },
   exampleSwitch 3 false [wire 1 1 3]]

/-- The connection from the `Out` slot of the gate at `source` to input slot
number `slot` of the gate at `gate`. -/
def outWire (gate slot source : Nat) : Connection :=
  { input_node := gate
    input_slot := CStr.inputLabels (slot * 2)
    output_node := source
    output_slot := CStr.literal "Out" }

/-- Two And gates resized to three inputs, at addresses 1 and 2, and a switch
at 3.  The output of gate 1 feeds input C of gate 2, then the switch feeds
input A of gate 1; input C of gate 1 is not connected. -/
def shrinkGraph : Graph :=
  [exampleGate 1 BasicName.And 2 3 [outWire 2 2 1, wire 1 0 3],
   exampleGate 2 BasicName.And 2 3 [outWire 2 2 1],
   exampleSwitch 3 true [wire 1 0 3]]

/-- A two-input And gate at address 1 whose list holds three incoming
connections, from the switches at 2, 3 and 4 (all on). -/
def overWiredGraph : Graph :=
  [exampleGate 1 BasicName.And 2 2 [wire 1 0 2, wire 1 1 3, wire 1 1 4],
   exampleSwitch 2 true [wire 1 0 2],
   exampleSwitch 3 true [wire 1 1 3],
   exampleSwitch 4 true [wire 1 1 4]]

/-- The two-switch graph with the two entries of the gate's list swapped. -/
def swappedInputGraph (name : BasicName) (a b : Bool) : Graph :=
  [exampleGate 1 name 2 2 [wire 1 1 3, wire 1 0 2],
   exampleSwitch 2 a [wire 1 0 2],
   exampleSwitch 3 b [wire 1 1 3]]

/-! ## The clock -/

/-- The constructor `ClockNode::ClockNode` for a node allocated at `id`:
`cycle = 1000`, `last_cycle` value-initialised (the epoch). -/
def ClockNode.new (id : Nat) : Node :=
  { id := id
    cls := NodeClass.Clock 1000 0
    selected := false
    connections := []
    input_slots := []
    output_slots := [{ title := CStr.literal "Power", kind := NodeSlotPower }] }

/-- The method `ClockNode::RenderUI` of the clock at address `this`, run at
wall-clock time `now`.  `drag = some v` is a frame on which `ImGui::DragInt`
stored `v` in `cycle` and returned true; `resetButton` is the result of
`ImGui::Button("Reset cycle")`. -/
def ClockNode.RenderUI (G : Graph) (this : Nat) (drag : Option Int) (resetButton : Bool)
    (now : Int) : Graph :=
  match G.deref this with
  | some node =>
    match node.cls with
    | NodeClass.Clock cycle _ =>
      if drag.isSome || resetButton then
        G.modify this (fun n => { n with
          cls := NodeClass.Clock (if drag.getD cycle ≤ 0 then 1 else drag.getD cycle) now })
      else G
    | _ => G
  | none => G

/-- A run of `ClockNode::RenderUI` calls on the clock at `this`, one per
frame, each with its own `drag`, `resetButton` and `now`. -/
def clockFrames (this : Nat) (frames : List (Option Int × Bool × Int)) (G : Graph) : Graph :=
  frames.foldl (fun G u => ClockNode.RenderUI G this u.1 u.2.1 u.2.2) G

/-! ## Notions used to state the properties of resizing -/

/-- The value `r` clamped to the interval `[lo, hi]`. -/
def clamp (r lo hi : Int) : Int := max lo (min r hi)

/-- A node with its connection list blanked: everything a
`DeleteConnection` call leaves alone. -/
def Node.shell (n : Node) : Node := { n with connections := [] }

/-- The `i`-th letter of the alphabet as a one-character string. -/
def letter (i : Nat) : String := String.singleton (Char.ofNat (65 + i))

/-! ## Removing a connection -/

/-- The body of the loop "Render output connections of this node" of
`circuitz()` for the storage cell `index` of `node->connections`.
`deleted c` stands for `!ImNodes::Connection(c.input_node, c.input_slot,
c.output_node, c.output_slot, ...)`.  The reference `connection` is read
again after the first `DeleteConnection` call.  The result is the graph and
the cells left behind the end of the vector. -/
def removeBody (node : Nat) (deleted : Connection → Bool) (index : Nat) (G : Graph)
    (stale : List Connection) : Graph × List Connection :=
  match cell G node stale index with
  | none => (G, stale)
  | some connection =>
    if connection.output_node ≠ node then (G, stale)
    else if deleted connection then
      match cell (G.DeleteConnection connection.input_node connection) node
          (staleAfter G node stale connection.input_node connection) index with
      | none =>
        (G.DeleteConnection connection.input_node connection,
          staleAfter G node stale connection.input_node connection)
      | some c2 =>
        ((G.DeleteConnection connection.input_node connection).DeleteConnection
            c2.output_node c2,
          staleAfter (G.DeleteConnection connection.input_node connection) node
            (staleAfter G node stale connection.input_node connection) c2.output_node c2)
    else (G, stale)

/-- The loop `for (const Connection &connection : node->connections)` of
"Render output connections of this node": `remaining` cells are left to
visit, the next one is `index`. -/
def removeLoop (node : Nat) (deleted : Connection → Bool) :
    Nat → Nat → Graph → List Connection → Graph
  | 0, _, G, _ => G
  | remaining + 1, index, G, stale =>
    removeLoop node deleted remaining (index + 1)
      (removeBody node deleted index G stale).1 (removeBody node deleted index G stale).2

/-! ## The upstream relation -/

/-- The pairs `(output_node, input_node)` of all recorded connections. -/
def edges (G : Graph) : List (Nat × Nat) :=
  G.flatMap (fun m => m.connections.map (fun c => (c.output_node, c.input_node)))

/-- The relation "`q` feeds `p`": some recorded connection has `q` as
`output_node` and `p` as `input_node`. -/
def feeds (G : Graph) (q p : Nat) : Prop := (q, p) ∈ edges G

/-- The relation `feeds` has no cycle. -/
def Acyclic (G : Graph) : Prop := ∀ p, ¬ Relation.TransGen (feeds G) p p

/-- The `output_node` of every recorded connection is a node of the graph. -/
abbrev UpstreamLive (G : Graph) : Prop :=
  ∀ m ∈ G, ∀ c ∈ m.connections, G.deref c.output_node ≠ none

/-- A Light has no output slot: every connection in its list enters it. -/
abbrev LightsOnlyIncoming (G : Graph) : Prop :=
  ∀ m ∈ G, m.cls = NodeClass.Light → ∀ c ∈ m.connections, c.input_node = m.id

/-- The connection from the `Out` slot of the gate at `gate` to the Light at
`light`. -/
def gateToLight (light gate : Nat) : Connection :=
  { input_node := light
    input_slot := CStr.literal "Power"
    output_node := gate
    output_slot := CStr.literal "Out" }

/-- A switch at address 3 feeding a Not gate at 2 feeding a Light at 1. -/
def chainGraph : Graph :=
  [exampleLight 1 [gateToLight 1 2],
   exampleGate 2 BasicName.Not 1 1 [gateToLight 1 2, wire 2 0 3],
   exampleSwitch 3 true [wire 2 0 3]]

/-! ## Sequences of graph mutations -/

/-- One mutation of the graph by `circuitz()`: a node pushed on `nodes` by a
menu item, a new connection stored, the "Render output connections" loop of
a node with the connections reported deleted, the delete branch for the node
at a position, and `SimpleNode::RenderUI` with an edit of the input count. -/
inductive Mutation where
  | create (node : Node)
  | add (c : Connection)
  | remove (node : Nat) (deleted : Connection → Bool)
  | delete (it : Nat) (deleteKey : Bool)
  | resize (this : Nat) (edit : Option Int)

/-- The effect of one mutation. -/
def Mutation.apply : Mutation → Graph → Graph
  | Mutation.create node, G => G ++ [node]
  | Mutation.add c, G => newConnection G c
  | Mutation.remove node deleted, G =>
    removeLoop node deleted (G.connectionsOf node).length 0 G []
  | Mutation.delete it deleteKey, G => deleteNode G it deleteKey
  | Mutation.resize this edit, G => SimpleNode.RenderUI G this edit

/-- The graph after a sequence of mutations. -/
def runMutations : List Mutation → Graph → Graph
  | [], G => G
  | m :: rest, G => runMutations rest (m.apply G)

/-- What the program guarantees of a mutation: a created node sits at a
fresh address with an empty connection list, and a new connection joins two
nodes of the graph. -/
def Mutation.feasible (G : Graph) : Mutation → Bool
  | Mutation.create node => decide (node.connections = [] ∧ ∀ m ∈ G, m.id ≠ node.id)
  | Mutation.add c => decide (G.deref c.input_node ≠ none ∧ G.deref c.output_node ≠ none)
  | _ => true

/-- The edit takes the shrink branch of `SimpleNode::RenderUI`. -/
def shrinks (G : Graph) (this : Nat) (edit : Option Int) : Bool :=
  match G.deref this, edit with
  | some node, some v =>
    match node.cls with
    | NodeClass.Basic _ _ defaultInputs =>
      decide ((node.input_slots.length : Int) > toSizeT (clampInputs v defaultInputs))
    | _ => false
  | _, _ => false

/-- The titles of the input slots that the edit discards: those of the slots
from position `numberInputs` on when `SimpleNode::RenderUI` takes the shrink
branch, none otherwise. -/
def discardedTitles (G : Graph) (this : Nat) (edit : Option Int) : List CStr :=
  match G.deref this, edit with
  | some node, some v =>
    match node.cls with
    | NodeClass.Basic _ _ defaultInputs =>
      if (node.input_slots.length : Int) > toSizeT (clampInputs v defaultInputs) then
        (node.input_slots.drop (clampInputs v defaultInputs).toNat).map (fun s => s.title)
      else []
    | _ => []
  | _, _ => []

/-- Some outgoing connection in the list of the gate at `this` (one with
`output_node == this`) has an `input_slot` that `strcmp` finds equal to the
title of a slot the edit discards. -/
def outgoingLabelMatch (G : Graph) (this : Nat) (edit : Option Int) : Bool :=
  (G.connectionsOf this).any (fun c =>
    decide (c.output_node = this) &&
      (discardedTitles G this edit).any (fun t => strcmpEq c.input_slot t))

/-- The extra conditions under which the bookkeeping stays exact: a new
connection joins two different nodes and is not yet in either list, and an
edit of the input count discards no slot whose label is the `input_slot` of
an outgoing connection of the edited gate. -/
def Mutation.guarded (G : Graph) : Mutation → Bool
  | Mutation.add c =>
    decide (c.input_node ≠ c.output_node ∧ c ∉ G.connectionsOf c.input_node ∧
      c ∉ G.connectionsOf c.output_node)
  | Mutation.resize this edit => !outgoingLabelMatch G this edit
  | _ => true

/-- Every mutation of the sequence is feasible in the graph it is applied to. -/
def feasibleRun : List Mutation → Graph → Bool
  | [], _ => true
  | m :: rest, G => m.feasible G && feasibleRun rest (m.apply G)

/-- Every mutation of the sequence is guarded in the graph it is applied to. -/
def guardedRun : List Mutation → Graph → Bool
  | [], _ => true
  | m :: rest, G => m.guarded G && guardedRun rest (m.apply G)

/-- Every connection present in some list occurs exactly once in the list of
its `input_node` and exactly once in the list of its `output_node`. -/
abbrev ExactlyOnce (G : Graph) : Prop :=
  ∀ m ∈ G, ∀ c ∈ m.connections,
    (G.connectionsOf c.input_node).count c = 1 ∧
    (G.connectionsOf c.output_node).count c = 1

/-- From the empty graph: a Not gate and a switch are created and the same
connection between them is stored twice. -/
def duplicateRun : List Mutation :=
  [Mutation.create (SimpleNode.new 1 BasicName.Not 1),
   Mutation.create (exampleSwitch 2 true []),
   Mutation.add (wire 1 0 2),
   Mutation.add (wire 1 0 2)]

/-- From the empty graph: two And gates and a switch are created, both gates
are grown to three inputs, gate 1 is wired to input C of gate 2 and the
switch to input A of gate 1, then gate 1 is shrunk back to two inputs. -/
def shrinkRun : List Mutation :=
  [Mutation.create (SimpleNode.new 1 BasicName.And 2),
   Mutation.create (SimpleNode.new 2 BasicName.And 2),
   Mutation.create (exampleSwitch 3 true []),
   Mutation.resize 1 (some 3),
   Mutation.resize 2 (some 3),
   Mutation.add (outWire 2 2 1),
   Mutation.add (wire 1 0 3),
   Mutation.resize 1 (some 2)]

/-- From the empty graph: an And gate at 1, two switches at 2 and 3 and a
Not gate at 4 are created; the switches are wired to inputs A and B of gate
1 and gate 1 to the Not gate; gate 1 is grown to four inputs and switch 2
wired to its input C; the connection on input A is removed; gate 1 is shrunk
back to two inputs, which discards the slots D and C with the connection on
C; the selected switch 3 is deleted. -/
def guardedExampleRun : List Mutation :=
  [Mutation.create (SimpleNode.new 1 BasicName.And 2),
   Mutation.create (exampleSwitch 2 true []),
   Mutation.create ({ exampleSwitch 3 false [] with selected := true }),
   Mutation.create (SimpleNode.new 4 BasicName.Not 1),
   Mutation.add (wire 1 0 2),
   Mutation.add (wire 1 1 3),
   Mutation.add (outWire 4 0 1),
   Mutation.resize 1 (some 4),
   Mutation.add (wire 1 2 2),
   Mutation.remove 2 (fun c => c = wire 1 0 2),
   Mutation.resize 1 (some 2),
   Mutation.delete 2 true]

/-- The bookkeeping invariant: distinct addresses, no list holds a
connection twice, every entry joins two different nodes, has the owner of
the list as an endpoint, and is present in the list of the node at each of
its endpoints. -/
structure WellRecorded (G : Graph) : Prop where
  distinct : DistinctIds G
  nodup : ∀ m ∈ G, m.connections.Nodup
  ends : ∀ m ∈ G, ∀ c ∈ m.connections, c.input_node ≠ c.output_node
  owns : OwnsEntries G
  both : ∀ m ∈ G, ∀ c ∈ m.connections, ∀ p, (p = c.input_node ∨ p = c.output_node) →
    ∃ m2 ∈ G, m2.id = p ∧ c ∈ m2.connections

/-- From the empty graph: a Test node is created and its output `1` is
connected to its own input `1`. -/
def selfLoopRun : List Mutation :=
  [Mutation.create (exampleTest 1 []),
   Mutation.add (selfLoop 1)]

/-- The symmetric-bookkeeping invariant: every entry of a node's list has
that node as `input_node` or `output_node`, both of its endpoints are nodes
of the graph, and when the endpoints differ it occurs equally often in the
list of its `input_node` and in the list of its `output_node`. -/
abbrev SymmetricBookkeeping (G : Graph) : Prop :=
  ∀ m ∈ G, ∀ c ∈ m.connections,
    (c.input_node = m.id ∨ c.output_node = m.id) ∧
    G.deref c.input_node ≠ none ∧ G.deref c.output_node ≠ none ∧
    (c.input_node ≠ c.output_node →
      (G.connectionsOf c.input_node).count c = (G.connectionsOf c.output_node).count c)

/-- The connections whose `output_node` the `State()` query of a node
follows: the incoming connections of a gate, the first connection of a
Light, none for a switch, a clock or a Test node. -/
def followed (m : Node) : List Connection :=
  match m.cls with
  | NodeClass.Basic _ _ _ => incoming m.id m.connections
  | NodeClass.Light => m.connections.take 1
  | _ => []

/-- Every connection that a `State()` query follows enters the querying node
and comes from a node of the graph. -/
abbrev FollowedSound (G : Graph) : Prop :=
  ∀ m ∈ G, ∀ c ∈ followed m, c.input_node = m.id ∧ G.deref c.output_node ≠ none

/-- The run `shrinkRun` with gate 1 created selected, followed by a frame
with the delete key down on which the delete branch handles gate 1 (at
position 0 of `nodes`). -/
def danglingRun : List Mutation :=
  [Mutation.create ({ SimpleNode.new 1 BasicName.And 2 with selected := true }),
   Mutation.create (SimpleNode.new 2 BasicName.And 2),
   Mutation.create (exampleSwitch 3 true []),
   Mutation.resize 1 (some 3),
   Mutation.resize 2 (some 3),
   Mutation.add (outWire 2 2 1),
   Mutation.add (wire 1 0 3),
   Mutation.resize 1 (some 2),
   Mutation.delete 0 true]

/-- A Light at address 1 and a Not gate at address 2 that both hold a
connection with the Light as `output_node` and the gate as `input_node`. -/
def lightLoopGraph : Graph :=
  [exampleLight 1 [outWire 2 0 1],
   exampleGate 2 BasicName.Not 1 1 [outWire 2 0 1]]

/-- From the empty graph: a Test node at 1 and a Not gate at 2 are created,
output `1` of the Test node is connected to its own input `1` twice, output
`2` of the Test node is connected to input A of the Not gate, and on a later
frame the editor reports the self-loop connection as deleted while the
outgoing connections of the Test node are rendered. -/
def selfLoopRemoveRun : List Mutation :=
  [Mutation.create (exampleTest 1 []),
   Mutation.create (SimpleNode.new 2 BasicName.Not 1),
   Mutation.add (selfLoop 1),
   Mutation.add (selfLoop 1),
   Mutation.add (testWire2 2 1),
   Mutation.remove 1 (fun c => c = selfLoop 1)]

/-! ## Lemmas on the gate loop -/

theorem basicState_eq_foldStates (name : BasicName) (this : Nat) (n : Int)
    (up : Nat → Option PowerState) (conns : List Connection) :
    ∀ state nodesCovered : Int,
      basicState name this n up conns state nodesCovered =
        foldStates name n (upstream this up conns) state nodesCovered := by
  induction conns with
  | nil => intro state nc; simp [basicState, upstream, incoming, foldStates]
  | cons x rest ih =>
    intro state nc
    by_cases hx : x.input_node = this
    · have hu : upstream this up (x :: rest) = up x.output_node :: upstream this up rest := by
        simp [upstream, incoming, hx]
      rw [hu]
      rcases hv : up x.output_node with _ | _ | _ | _
      · simp [basicState, hx, hv, foldStates]
      · simp only [basicState, hx, hv, foldStates, if_true]; exact ih _ _
      · simp only [basicState, hx, hv, foldStates, if_true]; exact ih _ _
      · simp [basicState, hx, hv, foldStates]
    · have hu : upstream this up (x :: rest) = upstream this up rest := by
        simp [upstream, incoming, hx]
      rw [hu]
      simp only [basicState, hx, if_false]
      exact ih _ _

theorem State_Basic (fuel : Nat) (G : Graph) (now : Int) (p : Nat) (node : Node)
    (name : BasicName) (n d : Int) (hderef : G.deref p = some node)
    (hcls : node.cls = NodeClass.Basic name n d) :
    State (fuel + 1) G now p =
      foldStates name n (upstream p (State fuel G now) node.connections) 0 0 := by
  simp only [State, hderef, hcls]
  exact basicState_eq_foldStates name p n _ _ 0 0

theorem upstream_length (this : Nat) (up : Nat → Option PowerState) (conns : List Connection) :
    (upstream this up conns).length = (incoming this conns).length := by
  simp [upstream]

theorem mem_upstream {this : Nat} {up : Nat → Option PowerState} {conns : List Connection}
    {o : Option PowerState} :
    o ∈ upstream this up conns ↔ ∃ x ∈ incoming this conns, up x.output_node = o := by
  simp [upstream]

/-- A broken upstream result ends the loop with `broken`, provided the
queries issued before it return. -/
theorem foldStates_broken (name : BasicName) (n : Int) (l : List (Option PowerState))
    (hall : ∀ o ∈ l, o ≠ none) (hb : some PowerState.broken ∈ l) :
    ∀ state nc : Int, foldStates name n l state nc = some PowerState.broken := by
  induction l with
  | nil => simp at hb
  | cons o rest ih =>
    intro state nc
    have hrest : ∀ o ∈ rest, o ≠ none := fun o ho => hall o (List.mem_cons_of_mem _ ho)
    match o, hall o (List.mem_cons_self _ _), hb with
    | some PowerState.broken, _, _ => simp [foldStates]
    | some PowerState.on, _, hb =>
      simp only [foldStates]
      exact ih hrest (by simpa using hb) _ _
    | some PowerState.off, _, hb =>
      simp only [foldStates]
      exact ih hrest (by simpa using hb) _ _

/-- When the number of enumerated inputs cannot reach `numberInputs`, the
result is `broken`. -/
theorem foldStates_count_ne (name : BasicName) (n : Int) (l : List (Option PowerState))
    (hall : ∀ o ∈ l, o ≠ none) :
    ∀ state nc : Int, nc + l.length ≠ n →
      foldStates name n l state nc = some PowerState.broken := by
  induction l with
  | nil => intro state nc h; simp at h; simp [foldStates, h]
  | cons o rest ih =>
    intro state nc h
    have hrest : ∀ o ∈ rest, o ≠ none := fun o ho => hall o (List.mem_cons_of_mem _ ho)
    have h2 : nc + 1 + (rest.length : Int) ≠ n := by
      intro h3; apply h; simp only [List.length_cons]; push_cast; omega
    match o, hall o (List.mem_cons_self _ _) with
    | some PowerState.broken, _ => simp [foldStates]
    | some PowerState.on, _ => simp only [foldStates]; exact ih hrest _ _ h2
    | some PowerState.off, _ => simp only [foldStates]; exact ih hrest _ _ h2

/-- The And family once the first input has been enumerated. -/
theorem foldStates_and_from (n : Int) (l : List (Option PowerState))
    (hoo : ∀ o ∈ l, o = some PowerState.on ∨ o = some PowerState.off) :
    ∀ state nc : Int, 1 ≤ nc → nc + l.length = n →
      foldStates BasicName.And n l state nc =
          some (if state ≠ 0 ∧ ∀ o ∈ l, o = some PowerState.on
            then PowerState.on else PowerState.off) ∧
      foldStates BasicName.Nand n l state nc =
          some (if state ≠ 0 ∧ ∀ o ∈ l, o = some PowerState.on
            then PowerState.off else PowerState.on) := by
  induction l with
  | nil =>
    intro state nc _ h
    simp at h
    by_cases hs : state = 0 <;>
      simp [foldStates, h, BasicName.resultTransformBlock, hs]
  | cons o rest ih =>
    intro state nc h1 h
    have hrest : ∀ o ∈ rest, o = some PowerState.on ∨ o = some PowerState.off :=
      fun o ho => hoo o (List.mem_cons_of_mem _ ho)
    have hne : ¬ (nc + 1 = 1) := by omega
    have h2 : nc + 1 + (rest.length : Int) = n := by
      rw [← h]; simp only [List.length_cons]; push_cast; omega
    rcases hoo o (List.mem_cons_self _ _) with ho | ho
    · subst ho
      have := ih hrest (BasicName.onBlock BasicName.And state) (nc + 1) (by omega) h2
      have hN : BasicName.onBlock BasicName.Nand state = BasicName.onBlock BasicName.And state := rfl
      simp only [foldStates, hne, if_false, hN]
      by_cases hs : state = 0 <;> simpa [BasicName.onBlock, hs] using this
    · subst ho
      have := ih hrest 0 (nc + 1) (by omega) h2
      simpa [foldStates, hne, BasicName.offBlock] using this

/-- The And family on a non-empty input list, from the initial locals. -/
theorem foldStates_and (n : Int) (l : List (Option PowerState))
    (hoo : ∀ o ∈ l, o = some PowerState.on ∨ o = some PowerState.off)
    (hn : 0 < n) (hlen : (l.length : Int) = n) :
    foldStates BasicName.And n l 0 0 =
        some (if ∀ o ∈ l, o = some PowerState.on then PowerState.on else PowerState.off) ∧
    foldStates BasicName.Nand n l 0 0 =
        some (if ∀ o ∈ l, o = some PowerState.on then PowerState.off else PowerState.on) := by
  cases l with
  | nil => simp at hlen; omega
  | cons o rest =>
    have hrest : ∀ o ∈ rest, o = some PowerState.on ∨ o = some PowerState.off :=
      fun o ho => hoo o (List.mem_cons_of_mem _ ho)
    have h2 : (1 : Int) + (rest.length : Int) = n := by
      rw [← hlen]; simp only [List.length_cons]; push_cast; omega
    rcases hoo o (List.mem_cons_self _ _) with ho | ho
    · subst ho
      have := foldStates_and_from n rest hrest 1 1 (by omega) h2
      simpa [foldStates] using this
    · subst ho
      have := foldStates_and_from n rest hrest 0 1 (by omega) h2
      simpa [foldStates] using this

/-- The Or family once the first input has been enumerated. -/
theorem foldStates_or_from (n : Int) (l : List (Option PowerState))
    (hoo : ∀ o ∈ l, o = some PowerState.on ∨ o = some PowerState.off) :
    ∀ state nc : Int, 1 ≤ nc → nc + l.length = n →
      foldStates BasicName.Or n l state nc =
          some (if state ≠ 0 ∨ some PowerState.on ∈ l
            then PowerState.on else PowerState.off) ∧
      foldStates BasicName.Nor n l state nc =
          some (if state ≠ 0 ∨ some PowerState.on ∈ l
            then PowerState.off else PowerState.on) := by
  induction l with
  | nil =>
    intro state nc _ h
    simp at h
    by_cases hs : state = 0 <;>
      simp [foldStates, h, BasicName.resultTransformBlock, hs]
  | cons o rest ih =>
    intro state nc h1 h
    have hrest : ∀ o ∈ rest, o = some PowerState.on ∨ o = some PowerState.off :=
      fun o ho => hoo o (List.mem_cons_of_mem _ ho)
    have hne : ¬ (nc + 1 = 1) := by omega
    have h2 : nc + 1 + (rest.length : Int) = n := by
      rw [← h]; simp only [List.length_cons]; push_cast; omega
    rcases hoo o (List.mem_cons_self _ _) with ho | ho
    · subst ho
      have := ih hrest 1 (nc + 1) (by omega) h2
      simpa [foldStates, hne, BasicName.onBlock] using this
    · subst ho
      have := ih hrest (BasicName.offBlock BasicName.Or state) (nc + 1) (by omega) h2
      have hN : BasicName.offBlock BasicName.Nor state = BasicName.offBlock BasicName.Or state := rfl
      simp only [foldStates, hne, if_false, hN]
      by_cases hs : state = 0 <;> simpa [BasicName.offBlock, hs] using this

/-- The Or family from the initial locals. -/
theorem foldStates_or (n : Int) (l : List (Option PowerState))
    (hoo : ∀ o ∈ l, o = some PowerState.on ∨ o = some PowerState.off)
    (hlen : (l.length : Int) = n) :
    foldStates BasicName.Or n l 0 0 =
        some (if some PowerState.on ∈ l then PowerState.on else PowerState.off) ∧
    foldStates BasicName.Nor n l 0 0 =
        some (if some PowerState.on ∈ l then PowerState.off else PowerState.on) := by
  cases l with
  | nil =>
    simp at hlen
    simp [foldStates, ← hlen, BasicName.resultTransformBlock]
  | cons o rest =>
    have hrest : ∀ o ∈ rest, o = some PowerState.on ∨ o = some PowerState.off :=
      fun o ho => hoo o (List.mem_cons_of_mem _ ho)
    have h2 : (1 : Int) + (rest.length : Int) = n := by
      rw [← hlen]; simp only [List.length_cons]; push_cast; omega
    rcases hoo o (List.mem_cons_self _ _) with ho | ho
    · subst ho
      have := foldStates_or_from n rest hrest 1 1 (by omega) h2
      simpa [foldStates] using this
    · subst ho
      have := foldStates_or_from n rest hrest 0 1 (by omega) h2
      simpa [foldStates] using this

theorem onCount_cons_on (l : List (Option PowerState)) :
    onCount (some PowerState.on :: l) = onCount l + 1 := by
  simp [onCount]

theorem onCount_cons_off (l : List (Option PowerState)) :
    onCount (some PowerState.off :: l) = onCount l := by
  simp [onCount]

/-- The parity family once the first input has been enumerated: `state`
holds the number of `on` inputs seen so far. -/
theorem foldStates_xor_from (n : Int) (l : List (Option PowerState))
    (hoo : ∀ o ∈ l, o = some PowerState.on ∨ o = some PowerState.off) :
    ∀ state nc : Int, 1 ≤ nc → 0 ≤ state → nc + l.length = n →
      foldStates BasicName.Xor n l state nc =
          some (if (state + (onCount l : Int)) % 2 = 1
            then PowerState.on else PowerState.off) ∧
      foldStates BasicName.Xnor n l state nc =
          some (if (state + (onCount l : Int)) % 2 = 1
            then PowerState.off else PowerState.on) := by
  induction l with
  | nil =>
    intro state nc _ hs h
    simp at h
    have ht : state.tmod 2 = state % 2 := Int.tmod_eq_emod hs (by decide)
    have h01 : state % 2 = 0 ∨ state % 2 = 1 := by omega
    rcases h01 with h0 | h0 <;>
      simp [foldStates, h, BasicName.resultTransformBlock, ht, h0, onCount]
  | cons o rest ih =>
    intro state nc h1 hs h
    have hrest : ∀ o ∈ rest, o = some PowerState.on ∨ o = some PowerState.off :=
      fun o ho => hoo o (List.mem_cons_of_mem _ ho)
    have hne : ¬ (nc + 1 = 1) := by omega
    have h2 : nc + 1 + (rest.length : Int) = n := by
      rw [← h]; simp only [List.length_cons]; push_cast; omega
    rcases hoo o (List.mem_cons_self _ _) with ho | ho
    · subst ho
      have := ih hrest (state + 1) (nc + 1) (by omega) (by omega) h2
      have he : state + 1 + (onCount rest : Int) = state + ((onCount rest + 1 : Nat) : Int) := by
        push_cast; omega
      rw [he] at this
      simpa [foldStates, hne, BasicName.onBlock, onCount_cons_on] using this
    · subst ho
      have := ih hrest state (nc + 1) (by omega) hs h2
      simpa [foldStates, hne, BasicName.offBlock, onCount_cons_off] using this

theorem ite_int_parity {α : Type} (k : Nat) (a b : α) :
    (if (k : Int) % 2 = 1 then a else b) = (if k % 2 = 1 then a else b) := by
  by_cases hk : k % 2 = 1
  · have : (k : Int) % 2 = 1 := by omega
    simp [hk, this]
  · have : ¬ ((k : Int) % 2 = 1) := by omega
    simp [hk, this]

theorem ite_even_parity {α : Type} (k : Nat) (a b : α) :
    (if k % 2 = 0 then a else b) = (if k % 2 = 1 then b else a) := by
  by_cases hk : k % 2 = 1
  · have : ¬ (k % 2 = 0) := by omega
    simp [hk, this]
  · have : k % 2 = 0 := by omega
    simp [hk, this]

/-- The parity family from the initial locals. -/
theorem foldStates_xor (n : Int) (l : List (Option PowerState))
    (hoo : ∀ o ∈ l, o = some PowerState.on ∨ o = some PowerState.off)
    (hlen : (l.length : Int) = n) :
    foldStates BasicName.Xor n l 0 0 =
        some (if onCount l % 2 = 1 then PowerState.on else PowerState.off) ∧
    foldStates BasicName.Xnor n l 0 0 =
        some (if onCount l % 2 = 0 then PowerState.on else PowerState.off) := by
  cases l with
  | nil =>
    simp at hlen
    simp [foldStates, ← hlen, BasicName.resultTransformBlock, onCount]
  | cons o rest =>
    have hrest : ∀ o ∈ rest, o = some PowerState.on ∨ o = some PowerState.off :=
      fun o ho => hoo o (List.mem_cons_of_mem _ ho)
    have h2 : (1 : Int) + (rest.length : Int) = n := by
      rw [← hlen]; simp only [List.length_cons]; push_cast; omega
    rcases hoo o (List.mem_cons_self _ _) with ho | ho
    · subst ho
      have := foldStates_xor_from n rest hrest 1 1 (by omega) (by omega) h2
      have he : (1 : Int) + (onCount rest : Int) = ((onCount rest + 1 : Nat) : Int) := by
        push_cast; omega
      rw [he] at this
      simp only [ite_int_parity] at this
      simp only [foldStates, onCount_cons_on, ite_even_parity]
      simpa using this
    · subst ho
      have := foldStates_xor_from n rest hrest 0 1 (by omega) (by omega) h2
      rw [zero_add] at this
      simp only [ite_int_parity] at this
      simp only [foldStates, onCount_cons_off, ite_even_parity]
      simpa using this

/-- The Not gate on a single input. -/
theorem foldStates_not (o : Option PowerState) :
    (o = some PowerState.on → foldStates BasicName.Not 1 [o] 0 0 = some PowerState.off) ∧
    (o = some PowerState.off → foldStates BasicName.Not 1 [o] 0 0 = some PowerState.on) := by
  constructor <;> intro h <;> subst h <;>
    simp [foldStates, BasicName.resultTransformBlock]

/-! ## Gates, lights: the value of `State()` -/

/-- C1: an And gate whose list holds exactly `n >= 1` incoming connections
(And gates keep at least two slots), all of whose upstream queries return on
or off, returns on when every upstream state is on and off otherwise; a Nand
gate on the same incoming states returns the opposite value. -/
theorem and_nand_state (fuel : Nat) (G : Graph) (now : Int) (p : Nat) (node : Node)
    (name : BasicName) (n d : Int)
    (hderef : G.deref p = some node) (hcls : node.cls = NodeClass.Basic name n d)
    (hn : 0 < n) (hcount : ((incoming p node.connections).length : Int) = n)
    (hup : ∀ x ∈ incoming p node.connections,
      State fuel G now x.output_node = some PowerState.on ∨
      State fuel G now x.output_node = some PowerState.off) :
    (name = BasicName.And → State (fuel + 1) G now p =
      some (if ∀ x ∈ incoming p node.connections,
          State fuel G now x.output_node = some PowerState.on
        then PowerState.on else PowerState.off)) ∧
    (name = BasicName.Nand → State (fuel + 1) G now p =
      some (if ∀ x ∈ incoming p node.connections,
          State fuel G now x.output_node = some PowerState.on
        then PowerState.off else PowerState.on)) := by
  have hoo : ∀ o ∈ upstream p (State fuel G now) node.connections,
      o = some PowerState.on ∨ o = some PowerState.off := by
    intro o ho
    obtain ⟨x, hx, rfl⟩ := mem_upstream.mp ho
    exact hup x hx
  have hlen : ((upstream p (State fuel G now) node.connections).length : Int) = n := by
    rw [upstream_length]; exact hcount
  have hall : (∀ o ∈ upstream p (State fuel G now) node.connections, o = some PowerState.on) ↔
      ∀ x ∈ incoming p node.connections, State fuel G now x.output_node = some PowerState.on := by
    simp [upstream]
  have key := foldStates_and n _ hoo hn hlen
  simp only [hall] at key
  constructor
  · intro hname; subst hname
    rw [State_Basic fuel G now p node _ n d hderef hcls]; exact key.1
  · intro hname; subst hname
    rw [State_Basic fuel G now p node _ n d hderef hcls]; exact key.2

/-- Witness for C1: And(on, off) on the two-switch graph. -/
theorem and_nand_state_witness :
    State 2 (twoInputGraph BasicName.And true false) 0 1 = some PowerState.off := by
  have h := (and_nand_state 1 (twoInputGraph BasicName.And true false) 0 1
    (exampleGate 1 BasicName.And 2 2 [wire 1 0 2, wire 1 1 3]) BasicName.And 2 2
    (by decide) (by decide) (by decide) (by decide) (by decide)).1 rfl
  rw [h]
  decide

/-- C2: an Or gate whose list holds exactly `n` incoming connections, all of
whose upstream queries return on or off, returns on when at least one
upstream state is on and off otherwise; a Nor gate on the same incoming
states returns the opposite value. -/
theorem or_nor_state (fuel : Nat) (G : Graph) (now : Int) (p : Nat) (node : Node)
    (name : BasicName) (n d : Int)
    (hderef : G.deref p = some node) (hcls : node.cls = NodeClass.Basic name n d)
    (hcount : ((incoming p node.connections).length : Int) = n)
    (hup : ∀ x ∈ incoming p node.connections,
      State fuel G now x.output_node = some PowerState.on ∨
      State fuel G now x.output_node = some PowerState.off) :
    (name = BasicName.Or → State (fuel + 1) G now p =
      some (if ∃ x ∈ incoming p node.connections,
          State fuel G now x.output_node = some PowerState.on
        then PowerState.on else PowerState.off)) ∧
    (name = BasicName.Nor → State (fuel + 1) G now p =
      some (if ∃ x ∈ incoming p node.connections,
          State fuel G now x.output_node = some PowerState.on
        then PowerState.off else PowerState.on)) := by
  have hoo : ∀ o ∈ upstream p (State fuel G now) node.connections,
      o = some PowerState.on ∨ o = some PowerState.off := by
    intro o ho
    obtain ⟨x, hx, rfl⟩ := mem_upstream.mp ho
    exact hup x hx
  have hlen : ((upstream p (State fuel G now) node.connections).length : Int) = n := by
    rw [upstream_length]; exact hcount
  have hany : some PowerState.on ∈ upstream p (State fuel G now) node.connections ↔
      ∃ x ∈ incoming p node.connections, State fuel G now x.output_node = some PowerState.on :=
    mem_upstream
  have key := foldStates_or n _ hoo hlen
  simp only [hany] at key
  constructor
  · intro hname; subst hname
    rw [State_Basic fuel G now p node _ n d hderef hcls]; exact key.1
  · intro hname; subst hname
    rw [State_Basic fuel G now p node _ n d hderef hcls]; exact key.2

/-- Witness for C2: Nor(off, off) on the two-switch graph. -/
theorem or_nor_state_witness :
    State 2 (twoInputGraph BasicName.Nor false false) 0 1 = some PowerState.on := by
  have h := (or_nor_state 1 (twoInputGraph BasicName.Nor false false) 0 1
    (exampleGate 1 BasicName.Nor 2 2 [wire 1 0 2, wire 1 1 3]) BasicName.Nor 2 2
    (by decide) (by decide) (by decide) (by decide)).2 rfl
  rw [h]
  decide

/-- C3: a Xor gate whose list holds exactly `n` incoming connections, all of
whose upstream queries return on or off, returns on exactly when the number
of on inputs is odd; a Xnor gate on the same incoming states returns on
exactly when that number is even. -/
theorem xor_xnor_state (fuel : Nat) (G : Graph) (now : Int) (p : Nat) (node : Node)
    (name : BasicName) (n d : Int)
    (hderef : G.deref p = some node) (hcls : node.cls = NodeClass.Basic name n d)
    (hcount : ((incoming p node.connections).length : Int) = n)
    (hup : ∀ x ∈ incoming p node.connections,
      State fuel G now x.output_node = some PowerState.on ∨
      State fuel G now x.output_node = some PowerState.off) :
    (name = BasicName.Xor → State (fuel + 1) G now p =
      some (if onCount (upstream p (State fuel G now) node.connections) % 2 = 1
        then PowerState.on else PowerState.off)) ∧
    (name = BasicName.Xnor → State (fuel + 1) G now p =
      some (if onCount (upstream p (State fuel G now) node.connections) % 2 = 0
        then PowerState.on else PowerState.off)) := by
  have hoo : ∀ o ∈ upstream p (State fuel G now) node.connections,
      o = some PowerState.on ∨ o = some PowerState.off := by
    intro o ho
    obtain ⟨x, hx, rfl⟩ := mem_upstream.mp ho
    exact hup x hx
  have hlen : ((upstream p (State fuel G now) node.connections).length : Int) = n := by
    rw [upstream_length]; exact hcount
  have key := foldStates_xor n _ hoo hlen
  constructor
  · intro hname; subst hname
    rw [State_Basic fuel G now p node _ n d hderef hcls]; exact key.1
  · intro hname; subst hname
    rw [State_Basic fuel G now p node _ n d hderef hcls]; exact key.2

/-- Witness for C3: Xor(on, on, on) = on and Xor(on, on) = off. -/
theorem xor_xnor_state_witness :
    State 2 (threeInputGraph BasicName.Xor true true true) 0 1 = some PowerState.on ∧
    State 2 (twoInputGraph BasicName.Xor true true) 0 1 = some PowerState.off := by
  have h3 := (xor_xnor_state 1 (threeInputGraph BasicName.Xor true true true) 0 1
    (exampleGate 1 BasicName.Xor 2 3 [wire 1 0 2, wire 1 1 3, wire 1 2 4]) BasicName.Xor 3 2
    (by decide) (by decide) (by decide) (by decide)).1 rfl
  have h2 := (xor_xnor_state 1 (twoInputGraph BasicName.Xor true true) 0 1
    (exampleGate 1 BasicName.Xor 2 2 [wire 1 0 2, wire 1 1 3]) BasicName.Xor 2 2
    (by decide) (by decide) (by decide) (by decide)).1 rfl
  rw [h3, h2]
  constructor <;> decide

/-- C4: for every gate class, if every upstream query of an incoming
connection returns and at least one of them returns broken, `State()` returns
broken, wherever the broken input stands in the list. -/
theorem broken_absorbing (fuel : Nat) (G : Graph) (now : Int) (p : Nat) (node : Node)
    (name : BasicName) (n d : Int)
    (hderef : G.deref p = some node) (hcls : node.cls = NodeClass.Basic name n d)
    (hup : ∀ x ∈ incoming p node.connections, State fuel G now x.output_node ≠ none)
    (hbroken : ∃ x ∈ incoming p node.connections,
      State fuel G now x.output_node = some PowerState.broken) :
    State (fuel + 1) G now p = some PowerState.broken := by
  rw [State_Basic fuel G now p node name n d hderef hcls]
  apply foldStates_broken
  · intro o ho
    obtain ⟨x, hx, rfl⟩ := mem_upstream.mp ho
    exact hup x hx
  · exact mem_upstream.mpr hbroken

/-- Witness for C4: an Or gate with input A on and input B broken. -/
theorem broken_absorbing_witness :
    State 2 (brokenInputGraph BasicName.Or true) 0 1 = some PowerState.broken :=
  broken_absorbing 1 (brokenInputGraph BasicName.Or true) 0 1
    (exampleGate 1 BasicName.Or 2 2 [wire 1 0 2, testWire 1 1 3]) BasicName.Or 2 2
    (by decide) (by decide) (by decide) (by decide)

/-- C5, as stated, fails: on `sameSlotGraph` the And gate has two input slots,
only slot A has incoming connections (two of them), and `State()` returns on
instead of broken. -/
theorem fewer_slots_not_broken :
    sameSlotGraph.deref 1 =
      some (exampleGate 1 BasicName.And 2 2 [wire 1 0 2, wire 1 0 3]) ∧
    (exampleGate 1 BasicName.And 2 2 [wire 1 0 2, wire 1 0 3]).input_slots.length = 2 ∧
    coveredSlots (exampleGate 1 BasicName.And 2 2 [wire 1 0 2, wire 1 0 3]) = 1 ∧
    State 2 sameSlotGraph 0 1 = some PowerState.on := by
  decide

/-- C5, amended: for every gate class, if the gate's list holds fewer
incoming connections than `numberInputs` and every upstream query of an
incoming connection returns, `State()` returns broken whatever the upstream
states are. -/
theorem fewer_connections_broken (fuel : Nat) (G : Graph) (now : Int) (p : Nat) (node : Node)
    (name : BasicName) (n d : Int)
    (hderef : G.deref p = some node) (hcls : node.cls = NodeClass.Basic name n d)
    (hfew : ((incoming p node.connections).length : Int) < n)
    (hup : ∀ x ∈ incoming p node.connections, State fuel G now x.output_node ≠ none) :
    State (fuel + 1) G now p = some PowerState.broken := by
  rw [State_Basic fuel G now p node name n d hderef hcls]
  apply foldStates_count_ne
  · intro o ho
    obtain ⟨x, hx, rfl⟩ := mem_upstream.mp ho
    exact hup x hx
  · rw [upstream_length]; omega

/-- Witness for the amended C5: a two-input And gate with only input A
connected (to a switch that is on). -/
theorem fewer_connections_broken_witness :
    State 2 halfWiredGraph 0 1 = some PowerState.broken :=
  fewer_connections_broken 1 halfWiredGraph 0 1
    (exampleGate 1 BasicName.And 2 2 [wire 1 0 2]) BasicName.And 2 2
    (by decide) (by decide) (by decide) (by decide)

/-- C6: a Not gate with one input slot and exactly one incoming connection
returns off when the upstream query returns on, and on when it returns off. -/
theorem not_state (fuel : Nat) (G : Graph) (now : Int) (p : Nat) (node : Node)
    (d : Int) (x : Connection)
    (hderef : G.deref p = some node)
    (hcls : node.cls = NodeClass.Basic BasicName.Not 1 d)
    (hone : incoming p node.connections = [x]) :
    (State fuel G now x.output_node = some PowerState.on →
      State (fuel + 1) G now p = some PowerState.off) ∧
    (State fuel G now x.output_node = some PowerState.off →
      State (fuel + 1) G now p = some PowerState.on) := by
  rw [State_Basic fuel G now p node BasicName.Not 1 d hderef hcls]
  have hu : upstream p (State fuel G now) node.connections =
      [State fuel G now x.output_node] := by
    simp [upstream, hone]
  rw [hu]
  exact foldStates_not _

/-- Witness for C6: Not(on) = off. -/
theorem not_state_witness : State 2 (notGraph true) 0 1 = some PowerState.off :=
  (not_state 1 (notGraph true) 0 1 (exampleGate 1 BasicName.Not 1 1 [wire 1 0 2]) 1
    (wire 1 0 2) (by decide) (by decide) (by decide)).1 (by decide)

/-- C7: a Light with an empty connection list returns broken; with a
non-empty list it returns exactly what the query of the `output_node` of the
first connection returns, whatever the later connections are. -/
theorem light_state (fuel : Nat) (G : Graph) (now : Int) (p : Nat) (node : Node)
    (hderef : G.deref p = some node) (hcls : node.cls = NodeClass.Light) :
    (node.connections = [] → State (fuel + 1) G now p = some PowerState.broken) ∧
    (∀ x rest, node.connections = x :: rest →
      State (fuel + 1) G now p = State fuel G now x.output_node) := by
  constructor
  · intro h; simp [State, hderef, hcls, h]
  · intro x rest h; simp [State, hderef, hcls, h]

/-- Witness for C7: a Light whose first connection comes from a switch that
is on and whose second comes from a switch that is off reports on. -/
theorem light_state_witness : State 2 (lightGraph true false) 0 1 = some PowerState.on := by
  have h := (light_state 1 (lightGraph true false) 0 1
    (exampleLight 1 [lightWire 1 2, lightWire 1 3]) (by decide) (by decide)).2
    (lightWire 1 2) [lightWire 1 3] rfl
  rw [h]
  decide

/-! ## Lemmas on graph mutation -/

theorem modify_eq_map (G : Graph) (p : Nat) (f : Node → Node) :
    G.modify p f = G.map (fun n => if n.id = p then f n else n) := rfl

theorem deref_modify_of_ne (G : Graph) (p a : Nat) (f : Node → Node)
    (hid : ∀ n, (f n).id = n.id) (hne : p ≠ a) :
    (G.modify p f).deref a = G.deref a := by
  unfold Graph.deref Graph.modify
  rw [List.find?_map]
  have hq : ((fun n : Node => n.id == a) ∘ fun n => if n.id = p then f n else n) =
      fun n => n.id == a := by
    funext n
    by_cases h : n.id = p <;> simp [h, hid]
  rw [hq]
  cases h : List.find? (fun n => n.id == a) G with
  | none => rfl
  | some m =>
    have h1 : m.id = a := by simpa using List.find?_some h
    have h2 : ¬ m.id = p := fun h3 => hne (h3 ▸ h1)
    simp [h2]

theorem connectionsOf_DeleteConnection_of_ne (G : Graph) (p a : Nat) (c : Connection)
    (hne : p ≠ a) : (G.DeleteConnection p c).connectionsOf a = G.connectionsOf a := by
  unfold Graph.connectionsOf Graph.DeleteConnection
  rw [deref_modify_of_ne G p a (fun n => n.DeleteConnection c) (fun _ => rfl) hne]

theorem deref_of_getElem? (G : Graph) (hnd : DistinctIds G) (it : Nat) (node : Node)
    (hit : G[it]? = some node) : G.deref node.id = some node := by
  have hmem : node ∈ G := List.mem_iff_getElem?.mpr ⟨it, hit⟩
  unfold Graph.deref
  cases h : G.find? (fun n => n.id == node.id) with
  | none =>
    have := List.find?_eq_none.mp h node hmem
    simp at this
  | some m =>
    have hm : m ∈ G := List.mem_of_find?_eq_some h
    have hid : m.id = node.id := by simpa using List.find?_some h
    rw [List.inj_on_of_nodup_map hnd hm hmem hid]

theorem filter_erase_of_false (q : Connection → Bool) (d : Connection) (hd : q d = false)
    (M : List Connection) : (M.erase d).filter q = M.filter q := by
  induction M with
  | nil => rfl
  | cons x rest ih =>
    by_cases hx : x = d
    · subst hx; simp [hd]
    · rw [List.erase_cons_tail (by simpa using hx)]
      simp [List.filter_cons, ih]

/-- Erasing, one by one, a list `D` of marked connections that covers every
marked entry of `M` leaves exactly the unmarked entries of `M`, in order. -/
theorem foldl_erase_eq_filter (mark : Connection → Bool) (D : List Connection)
    (hD : ∀ c ∈ D, mark c = true) :
    ∀ M : List Connection, (∀ c ∈ M, mark c = true → M.count c ≤ D.count c) →
      D.foldl List.erase M = M.filter (fun c => !mark c) := by
  induction D with
  | nil =>
    intro M hM
    simp only [List.foldl_nil]
    symm
    rw [List.filter_eq_self]
    intro c hc
    cases hm : mark c with
    | false => rfl
    | true =>
      have := hM c hc hm
      have hpos : 0 < M.count c := List.count_pos_iff.mpr hc
      simp at this
      omega
  | cons d rest ih =>
    intro M hM
    have hd : mark d = true := hD d (List.mem_cons_self _ _)
    simp only [List.foldl_cons]
    rw [ih (fun c hc => hD c (List.mem_cons_of_mem _ hc)) (M.erase d)]
    · exact filter_erase_of_false _ d (by simp [hd]) M
    · intro c hc hm
      have h1 := hM c (List.mem_of_mem_erase hc) hm
      rw [List.count_erase]
      rw [List.count_cons] at h1
      by_cases hdc : d = c
      · subst hdc; simp at h1 ⊢; omega
      · have : (d == c) = false := by simpa using hdc
        simp [this] at h1 ⊢; exact h1

/-- A run of `DeleteConnection` calls, each sent to the node picked by
`target`, erases from every node's list the connections sent to it. -/
theorem foldl_DeleteConnection (target : Connection → Nat) (D : List Connection) :
    ∀ G : Graph, D.foldl (fun G c => G.DeleteConnection (target c) c) G =
      G.map (fun m => { m with
        connections := (D.filter (fun c => target c = m.id)).foldl List.erase m.connections }) := by
  induction D with
  | nil => intro G; simp
  | cons d rest ih =>
    intro G
    simp only [List.foldl_cons]
    rw [ih]
    simp only [Graph.DeleteConnection, Graph.modify, List.map_map]
    apply List.map_congr_left
    intro m _
    by_cases hm : m.id = target d
    · simp [hm, Node.DeleteConnection, List.filter_cons]
    · have hm2 : ¬ target d = m.id := fun h => hm h.symm
      simp [hm, hm2, List.filter_cons]

/-- When no `DeleteConnection` call of the delete loop is sent to the node
under deletion, the loop visits the entries of its list one after the other. -/
theorem deleteLoop_eq_foldl (a : Nat) (L : List Connection)
    (hL : ∀ c ∈ L, otherEnd a c ≠ a) :
    ∀ (k idx : Nat) (G : Graph), G.connectionsOf a = L → idx + k = L.length →
      deleteLoop a k idx G [] =
        (L.drop idx).foldl (fun G c => G.DeleteConnection (otherEnd a c) c) G := by
  intro k
  induction k with
  | zero =>
    intro idx G _ hk
    have : L.drop idx = [] := List.drop_eq_nil_of_le (by omega)
    simp [deleteLoop, this]
  | succ k ih =>
    intro idx G hG hk
    have hlt : idx < L.length := by omega
    have hcell : cell G a [] idx = some L[idx] := by
      simp [cell, hG, List.getElem?_eq_getElem hlt]
    have hne : otherEnd a L[idx] ≠ a := hL _ (List.getElem_mem _)
    have hstale : staleAfter G a [] (otherEnd a L[idx]) L[idx] = [] := by
      simp [staleAfter, hne]
    rw [List.drop_eq_getElem_cons hlt]
    simp only [deleteLoop, hcell, hstale, List.foldl_cons]
    apply ih
    · rw [connectionsOf_DeleteConnection_of_ne _ _ _ _ hne]; exact hG
    · omega

theorem eraseIdx_map_comm {α β : Type} (f : α → β) :
    ∀ (l : List α) (i : Nat), (l.map f).eraseIdx i = (l.eraseIdx i).map f := by
  intro l
  induction l with
  | nil => intro i; rfl
  | cons x rest ih =>
    intro i
    cases i with
    | zero => rfl
    | succ i => simp [List.eraseIdx_cons_succ, ih]

theorem id_ne_of_mem_eraseIdx (G : Graph) (hnd : DistinctIds G) (it : Nat) (node : Node)
    (hit : G[it]? = some node) (m : Node) (hm : m ∈ G.eraseIdx it) :
    m ∈ G ∧ m.id ≠ node.id := by
  obtain ⟨i, hi, hne, rfl⟩ := List.mem_eraseIdx_iff_getElem.mp hm
  refine ⟨List.getElem_mem _, ?_⟩
  intro hid
  have hlt : it < G.length := by
    by_contra h
    rw [List.getElem?_eq_none (by omega)] at hit
    exact Option.noConfusion hit
  have hnode : G[it] = node := by
    rw [List.getElem?_eq_getElem hlt] at hit
    exact Option.some.inj hit
  have heq : G[i] = G[it] := by
    rw [hnode]
    exact List.inj_on_of_nodup_map hnd (List.getElem_mem _)
      (List.mem_iff_getElem?.mpr ⟨it, by rw [List.getElem?_eq_getElem hlt, hnode]⟩) hid
  exact hne ((List.Nodup.getElem_inj_iff (List.Nodup.of_map _ hnd)).mp heq)

/-- The graph left by the deletion of the node at position `it`, in closed
form: the node is dropped and every other list keeps exactly its entries
that do not touch the deleted node. -/
theorem deleteNode_eq (G : Graph) (it : Nat) (node : Node)
    (hit : G[it]? = some node) (hsel : node.selected = true)
    (hnd : DistinctIds G) (hown : OwnsEntries G) (hbal : Balanced G)
    (hself : ∀ c ∈ node.connections, ¬ (c.input_node = node.id ∧ c.output_node = node.id)) :
    deleteNode G it true =
      (G.eraseIdx it).map (fun m => { m with
        connections := m.connections.filter (fun c => !c.touches node.id) }) := by
  have hmem : node ∈ G := List.mem_iff_getElem?.mpr ⟨it, hit⟩
  have hconn : G.connectionsOf node.id = node.connections := by
    simp [Graph.connectionsOf, deref_of_getElem? G hnd it node hit]
  have hL : ∀ c ∈ node.connections, otherEnd node.id c ≠ node.id := by
    intro c hc h
    apply hself c hc
    unfold otherEnd at h
    by_cases ho : c.output_node = node.id
    · rw [if_pos ho] at h; exact ⟨h, ho⟩
    · rw [if_neg ho] at h; exact absurd h ho
  have hloop := deleteLoop_eq_foldl node.id node.connections hL node.connections.length 0 G
    hconn (by omega)
  simp only [List.drop_zero] at hloop
  rw [foldl_DeleteConnection] at hloop
  simp only [deleteNode, hit, hsel, Bool.true_and, if_true, hloop, modify_eq_map, List.map_map]
  rw [eraseIdx_map_comm]
  apply List.map_congr_left
  intro m hm
  obtain ⟨hmG, hmid⟩ := id_ne_of_mem_eraseIdx G hnd it node hit m hm
  have hkey : (node.connections.filter (fun c => otherEnd node.id c = m.id)).foldl
      List.erase m.connections = m.connections.filter (fun c => !c.touches node.id) := by
    apply foldl_erase_eq_filter (fun c => c.touches node.id)
    · intro c hc
      have hc2 := (List.mem_filter.mp hc).1
      rcases hown node hmem c hc2 with h | h <;> simp [Connection.touches, h]
    · intro c hc htouch
      have hend : otherEnd node.id c = m.id := by
        unfold otherEnd
        rcases hown m hmG c hc with h | h
        · have ho : c.output_node = node.id := by
            simp only [Connection.touches, Bool.or_eq_true, decide_eq_true_eq] at htouch
            rcases htouch with h2 | h2
            · exact absurd (h.symm.trans h2) hmid
            · exact h2
          rw [if_pos ho]; exact h
        · have ho : ¬ c.output_node = node.id := fun h2 => hmid (h.symm.trans h2)
          rw [if_neg ho]; exact h
      have hnodeEnd : node.id = c.input_node ∨ node.id = c.output_node := by
        simp only [Connection.touches, Bool.or_eq_true, decide_eq_true_eq] at htouch
        rcases htouch with h2 | h2
        · exact Or.inl h2.symm
        · exact Or.inr h2.symm
      have hcount := hbal m hmG c hc node hmem hnodeEnd
      rw [List.count_filter (by simpa using hend), hcount]
  simp [hmid, hkey]

/-! ## Graph mutation: deletion, resizing, new connections -/

/-- C8, as stated, fails.  In `doubleEntryGraph` every connection is recorded
in both endpoint lists, yet after the deletion of the switch at address 2 the
gate still lists a connection from it (the gate held it twice, the loop
erased it once).  In `selfLoopGraph` the loop erases from the list it is
iterating, skips the connection to the gate at 2, and that gate keeps a
reference to the deleted node at address 1. -/
theorem deleteNode_leaves_reference :
    (DistinctIds doubleEntryGraph ∧ RecordedAtBothEnds doubleEntryGraph ∧
      ¬ NoReference (deleteNode doubleEntryGraph 1 true) 2) ∧
    (DistinctIds selfLoopGraph ∧ RecordedAtBothEnds selfLoopGraph ∧
      ¬ NoReference (deleteNode selfLoopGraph 0 true) 1) := by
  decide

/-- C8, amended: in a graph with distinct node addresses where every list
entry has its owner as an endpoint and occurs equally often in the lists of
both its endpoints, deleting a selected node none of whose connections is a
self-loop leaves a graph that no longer holds the node, in which no list
holds a connection touching it, and in which every other node keeps exactly
its former entries that do not touch it, in their former order. -/
theorem deleteNode_severs (G : Graph) (it : Nat) (node : Node)
    (hit : G[it]? = some node) (hsel : node.selected = true)
    (hnd : DistinctIds G) (hown : OwnsEntries G) (hbal : Balanced G)
    (hself : ∀ c ∈ node.connections, ¬ (c.input_node = node.id ∧ c.output_node = node.id)) :
    (∀ m ∈ deleteNode G it true, m.id ≠ node.id) ∧
    NoReference (deleteNode G it true) node.id ∧
    deleteNode G it true =
      (G.eraseIdx it).map (fun m => { m with
        connections := m.connections.filter (fun c => !c.touches node.id) }) := by
  have heq := deleteNode_eq G it node hit hsel hnd hown hbal hself
  refine ⟨?_, ?_, heq⟩
  · intro m hm
    rw [heq] at hm
    obtain ⟨m0, hm0, rfl⟩ := List.mem_map.mp hm
    exact (id_ne_of_mem_eraseIdx G hnd it node hit m0 hm0).2
  · intro m hm c hc
    rw [heq] at hm
    obtain ⟨m0, _, rfl⟩ := List.mem_map.mp hm
    have hc2 := (List.mem_filter.mp hc).2
    simp only [Connection.touches, Bool.not_eq_true', Bool.or_eq_false_iff,
      decide_eq_false_iff_not] at hc2
    exact hc2

/-- Witness for the amended C8: deleting the selected switch at address 2 of
the two-switch graph. -/
theorem deleteNode_severs_witness :
    NoReference (deleteNode selectedSwitchGraph 1 true) 2 ∧
    deleteNode selectedSwitchGraph 1 true =
      [exampleGate 1 BasicName.And 2 2 [wire 1 1 3], exampleSwitch 3 false [wire 1 1 3]] := by
  have h := deleteNode_severs selectedSwitchGraph 1
    { exampleSwitch 2 true [wire 1 0 2] with selected := true }
    (by decide) (by decide) (by decide) (by decide) (by decide) (by decide)
  exact ⟨h.2.1, h.2.2.trans (by decide)⟩

/-- C9 fails on the code: in `shrinkGraph` every connection is recorded once
in both endpoint lists and no connection is bound to slot C of gate 1, so a
resize of gate 1 from three inputs to two should remove nothing.  The code
empties the list of gate 1: its outgoing connection to slot C of gate 2 and
its incoming connection on the kept slot A are erased there, and each
survives only in the list of its other endpoint. -/
theorem shrink_removes_other_connections :
    DistinctIds shrinkGraph ∧ OwnsEntries shrinkGraph ∧ Balanced shrinkGraph ∧
    RecordedAtBothEnds shrinkGraph ∧
    SimpleNode.RenderUI shrinkGraph 1 (some 2) =
      [exampleGate 1 BasicName.And 2 2 [],
       exampleGate 2 BasicName.And 2 3 [outWire 2 2 1],
       exampleSwitch 3 true [wire 1 0 3]] := by
  decide

theorem push_back_push_back (G : Graph) (a b : Nat) (c : Connection) :
    (G.push_back a c).push_back b c =
      G.map (fun n => { n with
        connections := n.connections ++ (if n.id = a then [c] else []) ++
          (if n.id = b then [c] else []) }) := by
  simp only [Graph.push_back, Graph.modify, List.map_map]
  apply List.map_congr_left
  intro n _
  by_cases ha : n.id = a
  · subst ha
    by_cases hb : n.id = b
    · subst hb; simp
    · simp [hb]
  · by_cases hb : n.id = b
    · subst hb; simp [ha]
    · simp [ha, hb]

theorem deref_map_of_id (G : Graph) (f : Node → Node) (hid : ∀ n, (f n).id = n.id)
    (a : Nat) : Graph.deref (G.map f) a = (G.deref a).map f := by
  unfold Graph.deref
  rw [List.find?_map]
  have hq : ((fun n : Node => n.id == a) ∘ f) = fun n => n.id == a := by
    funext n; simp [hid]
  rw [hq]

/-- C10: storing a new connection `c` turns the list of the node at every
live address `p` into its former list followed by `c` once if `p` is
`c.input_node` and once more if `p` is `c.output_node`.  So `c` becomes the
last entry of both endpoint lists, their earlier entries are kept, the list
of every other node is unchanged, and no other member of any node changes. -/
theorem newConnection_appends (G : Graph) (c : Connection) :
    (∀ p n, G.deref p = some n →
      (newConnection G c).connectionsOf p =
        n.connections ++ (if p = c.input_node then [c] else []) ++
          (if p = c.output_node then [c] else [])) ∧
    (∀ n ∈ newConnection G c, (n.id = c.input_node ∨ n.id = c.output_node) →
      n.connections.getLast? = some c) ∧
    newConnection G c =
      G.map (fun n => { n with
        connections := n.connections ++ (if n.id = c.input_node then [c] else []) ++
          (if n.id = c.output_node then [c] else []) }) := by
  have heq : newConnection G c = _ := push_back_push_back G c.input_node c.output_node c
  refine ⟨?_, ?_, heq⟩
  · intro p n hp
    have hnid : n.id = p := by
      have := List.find?_some hp
      simpa using this
    unfold Graph.connectionsOf
    rw [heq, deref_map_of_id G (fun n => { n with
        connections := n.connections ++ (if n.id = c.input_node then [c] else []) ++
          (if n.id = c.output_node then [c] else []) }) (fun _ => rfl) p, hp]
    simp [hnid]
  · intro n hn hend
    rw [heq] at hn
    obtain ⟨n0, _, rfl⟩ := List.mem_map.mp hn
    have hend2 : n0.id = c.input_node ∨ n0.id = c.output_node := hend
    show ((n0.connections ++ (if n0.id = c.input_node then [c] else [])) ++
      (if n0.id = c.output_node then [c] else [])).getLast? = some c
    by_cases hb : n0.id = c.output_node
    · rw [if_pos hb]; simp
    · rw [if_neg hb, if_pos (hend2.resolve_right hb)]; simp

/-! ## Gates: wiring count and order of the connection list -/

/-- On upstream results that are all on or off, a fully enumerated gate
returns on or off. -/
theorem foldStates_onoff (name : BasicName) (n : Int) (l : List (Option PowerState))
    (hoo : ∀ o ∈ l, o = some PowerState.on ∨ o = some PowerState.off) :
    ∀ state nc : Int, nc + l.length = n →
      foldStates name n l state nc = some PowerState.on ∨
      foldStates name n l state nc = some PowerState.off := by
  induction l with
  | nil =>
    intro state nc h
    simp at h
    by_cases hr : name.resultTransformBlock state = 0 <;> simp [foldStates, h, hr]
  | cons o rest ih =>
    intro state nc h
    have hrest : ∀ o ∈ rest, o = some PowerState.on ∨ o = some PowerState.off :=
      fun o ho => hoo o (List.mem_cons_of_mem _ ho)
    have h2 : nc + 1 + (rest.length : Int) = n := by
      rw [← h]; simp only [List.length_cons]; push_cast; omega
    rcases hoo o (List.mem_cons_self _ _) with ho | ho
    · subst ho; simp only [foldStates]; exact ih hrest _ _ h2
    · subst ho; simp only [foldStates]; exact ih hrest _ _ h2

/-- C18: for every gate class, when the upstream queries of the incoming
connections all return on or off, `State()` returns broken if the number of
incoming connections in the list differs from `numberInputs` (fewer or
more), and returns on or off if the two numbers are equal. -/
theorem count_decides_broken (fuel : Nat) (G : Graph) (now : Int) (p : Nat) (node : Node)
    (name : BasicName) (n d : Int)
    (hderef : G.deref p = some node) (hcls : node.cls = NodeClass.Basic name n d)
    (hup : ∀ x ∈ incoming p node.connections,
      State fuel G now x.output_node = some PowerState.on ∨
      State fuel G now x.output_node = some PowerState.off) :
    (((incoming p node.connections).length : Int) ≠ n →
      State (fuel + 1) G now p = some PowerState.broken) ∧
    (((incoming p node.connections).length : Int) = n →
      State (fuel + 1) G now p = some PowerState.on ∨
      State (fuel + 1) G now p = some PowerState.off) := by
  have hoo : ∀ o ∈ upstream p (State fuel G now) node.connections,
      o = some PowerState.on ∨ o = some PowerState.off := by
    intro o ho
    obtain ⟨x, hx, rfl⟩ := mem_upstream.mp ho
    exact hup x hx
  rw [State_Basic fuel G now p node name n d hderef hcls]
  constructor
  · intro hne
    apply foldStates_count_ne
    · intro o ho h
      rcases hoo o ho with h1 | h1 <;> rw [h1] at h <;> exact Option.noConfusion h
    · rw [upstream_length]; simpa using hne
  · intro heq
    apply foldStates_onoff name n _ hoo
    rw [upstream_length]; simpa using heq

/-- Witness for C18: a two-input And gate with three incoming connections,
all on, reports broken; with one it reports broken; with two it reports on. -/
theorem count_decides_broken_witness :
    State 2 overWiredGraph 0 1 = some PowerState.broken ∧
    State 2 halfWiredGraph 0 1 = some PowerState.broken ∧
    (State 2 (twoInputGraph BasicName.And true true) 0 1 = some PowerState.on ∨
      State 2 (twoInputGraph BasicName.And true true) 0 1 = some PowerState.off) :=
  ⟨(count_decides_broken 1 overWiredGraph 0 1
      (exampleGate 1 BasicName.And 2 2 [wire 1 0 2, wire 1 1 3, wire 1 1 4]) BasicName.And 2 2
      (by decide) (by decide) (by decide)).1 (by decide),
   (count_decides_broken 1 halfWiredGraph 0 1
      (exampleGate 1 BasicName.And 2 2 [wire 1 0 2]) BasicName.And 2 2
      (by decide) (by decide) (by decide)).1 (by decide),
   (count_decides_broken 1 (twoInputGraph BasicName.And true true) 0 1
      (exampleGate 1 BasicName.And 2 2 [wire 1 0 2, wire 1 1 3]) BasicName.And 2 2
      (by decide) (by decide) (by decide)).2 (by decide)⟩

/-- For the six accumulating gate classes the loop result is the same on two
lists of returned upstream results that are permutations of each other. -/
theorem foldStates_perm (name : BasicName) (hname : name ≠ BasicName.Not) (n : Int)
    (l1 l2 : List (Option PowerState)) (hperm : l1.Perm l2)
    (hret : ∀ o ∈ l1, o ≠ none) :
    foldStates name n l1 0 0 = foldStates name n l2 0 0 := by
  have hret2 : ∀ o ∈ l2, o ≠ none := fun o ho => hret o (hperm.mem_iff.mpr ho)
  by_cases hb : some PowerState.broken ∈ l1
  · rw [foldStates_broken name n l1 hret hb, foldStates_broken name n l2 hret2
      (hperm.mem_iff.mp hb)]
  · have hoo1 : ∀ o ∈ l1, o = some PowerState.on ∨ o = some PowerState.off := by
      intro o ho
      match o, hret o ho, ho with
      | some PowerState.on, _, _ => exact Or.inl rfl
      | some PowerState.off, _, _ => exact Or.inr rfl
      | some PowerState.broken, _, ho => exact absurd ho hb
    have hoo2 : ∀ o ∈ l2, o = some PowerState.on ∨ o = some PowerState.off :=
      fun o ho => hoo1 o (hperm.mem_iff.mpr ho)
    have hlen : l1.length = l2.length := hperm.length_eq
    by_cases hn : (l1.length : Int) = n
    · have hn2 : (l2.length : Int) = n := by rw [← hlen]; exact hn
      have hall : (∀ o ∈ l1, o = some PowerState.on) ↔ (∀ o ∈ l2, o = some PowerState.on) :=
        ⟨fun h o ho => h o (hperm.mem_iff.mpr ho), fun h o ho => h o (hperm.mem_iff.mp ho)⟩
      have hany : some PowerState.on ∈ l1 ↔ some PowerState.on ∈ l2 := hperm.mem_iff
      have hcnt : onCount l1 = onCount l2 := by
        unfold onCount List.count; exact hperm.countP_eq _
      cases l1 with
      | nil =>
        have : l2 = [] := List.length_eq_zero.mp (by simpa using hlen.symm)
        rw [this]
      | cons o rest =>
        have hpos : 0 < n := by rw [← hn]; simp
        cases name with
        | Or => rw [(foldStates_or n _ hoo1 hn).1, (foldStates_or n _ hoo2 hn2).1]; simp only [hany]
        | Nor => rw [(foldStates_or n _ hoo1 hn).2, (foldStates_or n _ hoo2 hn2).2]; simp only [hany]
        | And =>
          rw [(foldStates_and n _ hoo1 hpos hn).1, (foldStates_and n _ hoo2 hpos hn2).1]
          simp only [hall]
        | Nand =>
          rw [(foldStates_and n _ hoo1 hpos hn).2, (foldStates_and n _ hoo2 hpos hn2).2]
          simp only [hall]
        | Xor => rw [(foldStates_xor n _ hoo1 hn).1, (foldStates_xor n _ hoo2 hn2).1, hcnt]
        | Xnor => rw [(foldStates_xor n _ hoo1 hn).2, (foldStates_xor n _ hoo2 hn2).2, hcnt]
        | Not => exact absurd rfl hname
    · have hn2 : ¬ (l2.length : Int) = n := by rw [← hlen]; exact hn
      rw [foldStates_count_ne name n l1 hret 0 0 (by simpa using hn),
        foldStates_count_ne name n l2 hret2 0 0 (by simpa using hn2)]

/-- C20: for an And, Or, Nand, Nor, Xor or Xnor gate, two connection lists
that are permutations of each other give the same `State()` result (broken
included) for the same `numberInputs`, provided the upstream queries of the
incoming connections return and return the same in both graphs. -/
theorem state_perm_invariant (fuel : Nat) (G1 G2 : Graph) (now : Int) (p : Nat)
    (node1 node2 : Node) (name : BasicName) (n d1 d2 : Int)
    (h1 : G1.deref p = some node1) (h2 : G2.deref p = some node2)
    (hc1 : node1.cls = NodeClass.Basic name n d1)
    (hc2 : node2.cls = NodeClass.Basic name n d2)
    (hname : name ≠ BasicName.Not)
    (hperm : node1.connections.Perm node2.connections)
    (hsame : ∀ x ∈ incoming p node1.connections,
      State fuel G1 now x.output_node = State fuel G2 now x.output_node)
    (hret : ∀ x ∈ incoming p node1.connections, State fuel G1 now x.output_node ≠ none) :
    State (fuel + 1) G1 now p = State (fuel + 1) G2 now p := by
  rw [State_Basic fuel G1 now p node1 name n d1 h1 hc1,
    State_Basic fuel G2 now p node2 name n d2 h2 hc2]
  have hinc : (incoming p node1.connections).Perm (incoming p node2.connections) :=
    hperm.filter _
  have hup2 : upstream p (State fuel G2 now) node2.connections =
      (incoming p node2.connections).map (fun x => State fuel G1 now x.output_node) := by
    unfold upstream
    apply List.map_congr_left
    intro x hx
    exact (hsame x (hinc.mem_iff.mpr hx)).symm
  rw [hup2]
  apply foldStates_perm name hname n
  · exact hinc.map _
  · intro o ho
    obtain ⟨x, hx, rfl⟩ := mem_upstream.mp ho
    exact hret x hx

/-- Witness for C20: And(on, off) with the two entries of the list swapped. -/
theorem state_perm_invariant_witness :
    State 2 (twoInputGraph BasicName.And true false) 0 1 =
      State 2 (swappedInputGraph BasicName.And true false) 0 1 :=
  state_perm_invariant 1 (twoInputGraph BasicName.And true false)
    (swappedInputGraph BasicName.And true false) 0 1
    (exampleGate 1 BasicName.And 2 2 [wire 1 0 2, wire 1 1 3])
    (exampleGate 1 BasicName.And 2 2 [wire 1 1 3, wire 1 0 2]) BasicName.And 2 2 2
    (by decide) (by decide) (by decide) (by decide) (by decide)
    (List.Perm.swap _ _ _) (by decide) (by decide)

/-! ## The clock -/

theorem State_Clock (fuel : Nat) (G : Graph) (now : Int) (p : Nat) (node : Node)
    (P T : Int) (hderef : G.deref p = some node) (hcls : node.cls = NodeClass.Clock P T) :
    State (fuel + 1) G now p = some (clockState P T now) := by
  simp [State, hderef, hcls]

theorem clockState_eq (P T now : Int) (hP : 1 ≤ P) (ht : T ≤ now) :
    clockState P T now =
      if ((now - T) / P) % 2 = 0 then PowerState.on else PowerState.off := by
  unfold clockState
  have h1 : 0 ≤ now - T := by omega
  have h2 : 0 ≤ P := by omega
  rw [Int.tdiv_eq_ediv h1 h2, Int.tmod_eq_emod (Int.ediv_nonneg h1 h2) (by decide)]

/-- C15: a clock with period `P >= 1` and reference time `T`, queried at a
time `now >= T` (whole milliseconds), returns on when the quotient
`(now - T) / P` is even and off when it is odd, never broken; so it is on
for an elapsed time in `[k * P, (k + 1) * P)` with `k` even and off with `k`
odd. -/
theorem clock_state (fuel : Nat) (G : Graph) (now : Int) (p : Nat) (node : Node)
    (P T : Int) (hderef : G.deref p = some node) (hcls : node.cls = NodeClass.Clock P T)
    (hP : 1 ≤ P) (ht : T ≤ now) :
    State (fuel + 1) G now p =
      some (if ((now - T) / P) % 2 = 0 then PowerState.on else PowerState.off) ∧
    State (fuel + 1) G now p ≠ some PowerState.broken ∧
    (∀ k : Int, k * P ≤ now - T → now - T < (k + 1) * P →
      State (fuel + 1) G now p =
        some (if k % 2 = 0 then PowerState.on else PowerState.off)) := by
  have hs := State_Clock fuel G now p node P T hderef hcls
  rw [clockState_eq P T now hP ht] at hs
  refine ⟨hs, ?_, ?_⟩
  · rw [hs]
    by_cases h : ((now - T) / P) % 2 = 0 <;> simp [h]
  · intro k hk1 hk2
    have hPpos : 0 < P := by omega
    have hq : (now - T) / P = k := by
      apply le_antisymm
      · exact Int.lt_add_one_iff.mp ((Int.ediv_lt_iff_lt_mul hPpos).mpr hk2)
      · exact (Int.le_ediv_iff_mul_le hPpos).mpr hk1
    rw [hs, hq]

/-- Witness for C15: the freshly constructed clock (period 1000, reference
0) is off at time 1500 and on at time 2500. -/
theorem clock_state_witness :
    State 1 [ClockNode.new 1] 1500 1 = some PowerState.off ∧
    State 1 [ClockNode.new 1] 2500 1 = some PowerState.on :=
  ⟨(clock_state 0 [ClockNode.new 1] 1500 1 (ClockNode.new 1) 1000 0
      (by decide) (by decide) (by decide) (by decide)).2.2 1 (by decide) (by decide),
   (clock_state 0 [ClockNode.new 1] 2500 1 (ClockNode.new 1) 1000 0
      (by decide) (by decide) (by decide) (by decide)).2.2 2 (by decide) (by decide)⟩

theorem deref_modify_self (G : Graph) (p : Nat) (f : Node → Node)
    (hid : ∀ n, (f n).id = n.id) :
    (G.modify p f).deref p = (G.deref p).map f := by
  rw [modify_eq_map, deref_map_of_id G (fun n => if n.id = p then f n else n)
    (fun n => by by_cases h : n.id = p <;> simp [h, hid]) p]
  cases h : G.deref p with
  | none => rfl
  | some n =>
    have hn : n.id = p := by
      have := List.find?_some h
      simpa using this
    simp [hn]

theorem ClockNode_RenderUI_changed (G : Graph) (this : Nat) (node : Node) (P T : Int)
    (drag : Option Int) (resetButton : Bool) (now : Int)
    (hderef : G.deref this = some node) (hcls : node.cls = NodeClass.Clock P T)
    (hch : (drag.isSome || resetButton) = true) :
    (ClockNode.RenderUI G this drag resetButton now).deref this =
      some { node with
        cls := NodeClass.Clock (if drag.getD P ≤ 0 then 1 else drag.getD P) now } := by
  unfold ClockNode.RenderUI
  simp only [hderef, hcls, hch, if_true]
  rw [deref_modify_self G this (fun n => { n with
    cls := NodeClass.Clock (if drag.getD P ≤ 0 then 1 else drag.getD P) now })
    (fun _ => rfl), hderef]
  rfl

theorem ClockNode_RenderUI_idle (G : Graph) (this : Nat) (now : Int) :
    ClockNode.RenderUI G this none false now = G := by
  unfold ClockNode.RenderUI
  cases h : G.deref this with
  | none => rfl
  | some node => cases hc : node.cls <;> simp [hc]

/-- C16, as stated, fails: the freshly constructed clock has reference time
0; changing its period to 300 at time 100, without pressing the reset
button, stores 100 as the reference time, and the query at time 350 returns
on where the period 300 measured from the old reference 0 gives off. -/
theorem period_change_moves_reference :
    (ClockNode.RenderUI [ClockNode.new 1] 1 (some 300) false 100).deref 1 =
      some { ClockNode.new 1 with cls := NodeClass.Clock 300 100 } ∧
    State 1 (ClockNode.RenderUI [ClockNode.new 1] 1 (some 300) false 100) 350 1 =
      some PowerState.on ∧
    clockState 300 0 350 = PowerState.off := by
  decide

/-- C16, amended: changing a clock's period from `P` to `P'` at time `t0`
(reset button pressed or not) stores `t0` as the reference time and `P'`,
raised to 1 when it is not positive, as the period; later queries use that
period measured from `t0`.  A frame with neither a period change nor a
reset leaves the graph unchanged. -/
theorem period_change_resets (G : Graph) (this : Nat) (node : Node) (P T P' : Int)
    (resetButton : Bool) (t0 : Int)
    (hderef : G.deref this = some node) (hcls : node.cls = NodeClass.Clock P T) :
    (ClockNode.RenderUI G this (some P') resetButton t0).deref this =
      some { node with cls := NodeClass.Clock (if P' ≤ 0 then 1 else P') t0 } ∧
    (∀ fuel now, State (fuel + 1) (ClockNode.RenderUI G this (some P') resetButton t0) now this =
      some (clockState (if P' ≤ 0 then 1 else P') t0 now)) ∧
    ClockNode.RenderUI G this none false t0 = G := by
  have h := ClockNode_RenderUI_changed G this node P T (some P') resetButton t0 hderef hcls
    (by simp)
  simp only [Option.getD_some] at h
  refine ⟨h, ?_, ClockNode_RenderUI_idle G this t0⟩
  intro fuel now
  exact State_Clock fuel _ now this _ _ _ h rfl

/-- Witness for the amended C16: the period of the fresh clock changed to
300 at time 100. -/
theorem period_change_resets_witness :
    State 1 (ClockNode.RenderUI [ClockNode.new 1] 1 (some 300) false 100) 350 1 =
      some (clockState 300 100 350) :=
  (period_change_resets [ClockNode.new 1] 1 (ClockNode.new 1) 1000 0 300 false 100
    (by decide) (by decide)).2.1 0 350

theorem ClockNode_RenderUI_positive (G : Graph) (this : Nat) (node : Node) (P T : Int)
    (drag : Option Int) (resetButton : Bool) (now : Int)
    (hderef : G.deref this = some node) (hcls : node.cls = NodeClass.Clock P T)
    (hP : 1 ≤ P) :
    ∃ node' P' T', (ClockNode.RenderUI G this drag resetButton now).deref this = some node' ∧
      node'.cls = NodeClass.Clock P' T' ∧ 1 ≤ P' := by
  by_cases hch : (drag.isSome || resetButton) = true
  · refine ⟨_, _, _, ClockNode_RenderUI_changed G this node P T drag resetButton now
      hderef hcls hch, rfl, ?_⟩
    by_cases h : drag.getD P ≤ 0
    · simp [h]
    · simp only [h, if_false]; omega
  · refine ⟨node, P, T, ?_, hcls, hP⟩
    have hd : drag = none := by
      cases drag with
      | none => rfl
      | some v => simp at hch
    have hb : resetButton = false := by
      cases resetButton with
      | false => rfl
      | true => simp at hch
    rw [hd, hb, ClockNode_RenderUI_idle]
    exact hderef

/-- C17: a clock whose period is at least 1 (the constructor stores 1000)
still has a period of at least 1 after any run of configuration frames,
whatever value each frame requests; a frame that requests a value that is
zero or negative stores 1.  So `ClockNode::State` never divides by zero. -/
theorem clock_period_positive (G : Graph) (this : Nat) (node : Node) (P T : Int)
    (hderef : G.deref this = some node) (hcls : node.cls = NodeClass.Clock P T)
    (hP : 1 ≤ P) :
    (∀ frames : List (Option Int × Bool × Int),
      ∃ node' P' T', (clockFrames this frames G).deref this = some node' ∧
        node'.cls = NodeClass.Clock P' T' ∧ 1 ≤ P') ∧
    (∀ (v : Int) (resetButton : Bool) (now : Int), v ≤ 0 →
      (ClockNode.RenderUI G this (some v) resetButton now).deref this =
        some { node with cls := NodeClass.Clock 1 now }) := by
  constructor
  · intro frames
    induction frames generalizing G node P T with
    | nil => exact ⟨node, P, T, hderef, hcls, hP⟩
    | cons u rest ih =>
      obtain ⟨node1, P1, T1, h1, hc1, hP1⟩ :=
        ClockNode_RenderUI_positive G this node P T u.1 u.2.1 u.2.2 hderef hcls hP
      exact ih _ node1 P1 T1 h1 hc1 hP1
  · intro v resetButton now hv
    have h := ClockNode_RenderUI_changed G this node P T (some v) resetButton now hderef hcls
      (by simp)
    simpa [hv] using h

/-- Witness for C17: the fresh clock after frames that request 0, then -3
with a reset, then nothing. -/
theorem clock_period_positive_witness :
    ∃ node' P' T',
      (clockFrames 1 [(some 0, false, 5), (some (-3), true, 9), (none, false, 12)]
        [ClockNode.new 1]).deref 1 = some node' ∧
      node'.cls = NodeClass.Clock P' T' ∧ 1 ≤ P' :=
  (clock_period_positive [ClockNode.new 1] 1 (ClockNode.new 1) 1000 0
    (by decide) (by decide) (by decide)).1 _

/-! ## Resizing the input slots -/

theorem shell_modify_connections (G : Graph) (p : Nat) (f : Node → Node)
    (hf : ∀ n, (f n).shell = n.shell) :
    (G.modify p f).map Node.shell = G.map Node.shell := by
  rw [modify_eq_map, List.map_map]
  apply List.map_congr_left
  intro n _
  by_cases h : n.id = p <;> simp [h, hf]

theorem shell_DeleteConnection (G : Graph) (p : Nat) (c : Connection) :
    (G.DeleteConnection p c).map Node.shell = G.map Node.shell :=
  shell_modify_connections G p _ (fun _ => rfl)

theorem shell_shrinkInner (this : Nat) (title : CStr) :
    ∀ (remaining index : Nat) (G : Graph) (stale : List Connection),
      (shrinkInner this title remaining index G stale).map Node.shell = G.map Node.shell := by
  intro remaining
  induction remaining with
  | zero => intro index G stale; rfl
  | succ k ih =>
    intro index G stale
    unfold shrinkInner
    cases h1 : cell G this stale index with
    | none => rfl
    | some c =>
      simp only
      by_cases hs : strcmpEq c.input_slot title = true
      · simp only [hs, if_true]
        cases h2 : cell (G.DeleteConnection c.output_node c) this
            (staleAfter G this stale c.output_node c) index with
        | none => exact shell_DeleteConnection G _ _
        | some c2 =>
          simp only
          rw [ih, shell_DeleteConnection, shell_DeleteConnection]
      · simp only [hs]
        exact ih _ _ _

theorem shell_shrinkOuter (this : Nat) (input_slots : List SlotInfo) :
    ∀ (indices : List Nat) (G : Graph),
      (shrinkOuter this input_slots indices G).map Node.shell = G.map Node.shell := by
  intro indices
  induction indices with
  | nil => intro G; rfl
  | cons i rest ih =>
    intro G
    unfold shrinkOuter
    cases h : input_slots[i]? with
    | none => rfl
    | some slot =>
      simp only
      rw [ih, shell_shrinkInner]

theorem deref_of_shell_eq (G1 G2 : Graph) (h : G1.map Node.shell = G2.map Node.shell)
    (p : Nat) : (G1.deref p).map Node.shell = (G2.deref p).map Node.shell := by
  rw [← deref_map_of_id G1 Node.shell (fun _ => rfl) p,
    ← deref_map_of_id G2 Node.shell (fun _ => rfl) p, h]

theorem appendedSlots_length (a b : Nat) : (appendedSlots a b).length = b - a := by
  simp [appendedSlots]

theorem appendedSlots_append (a b : Nat) (h : a ≤ b) :
    appendedSlots 0 a ++ appendedSlots a b = appendedSlots 0 b := by
  unfold appendedSlots
  rw [← List.map_append]
  congr 1
  have := List.range'_append 0 (a - 0) (b - a) 1
  simp only [Nat.sub_zero, Nat.zero_add, Nat.one_mul] at this
  simp only [Nat.sub_zero]
  rw [this]
  congr 1
  omega

theorem appendedSlots_take (a b : Nat) (h : b ≤ a) :
    (appendedSlots 0 a).take b = appendedSlots 0 b := by
  rw [← appendedSlots_append b a h]
  apply List.take_left'
  simp [appendedSlots_length]

theorem appendedSlots_getElem? (n i : Nat) (h : i < n) :
    (appendedSlots 0 n)[i]? =
      some { title := CStr.inputLabels (i * 2), kind := NodeSlotPower } := by
  simp [appendedSlots, List.getElem?_map, List.getElem?_range', h]

theorem clampInputs_eq_clamp (r m : Int) (hm : m ≤ 26) : clampInputs r m = clamp r m 26 := by
  unfold clampInputs clamp
  by_cases h1 : r > 26
  · simp only [h1, if_true]; omega
  · by_cases h2 : r < m
    · simp only [h1, h2, if_true, if_false]; omega
    · simp only [h1, h2, if_false]; omega

theorem toSizeT_of_small (n : Int) (h0 : 0 ≤ n) (h26 : n ≤ 26) : toSizeT n = n := by
  unfold toSizeT
  apply Int.emod_eq_of_lt h0
  have : (2 : Int) ^ 64 = 18446744073709551616 := by norm_num
  omega

/-- The slots and class of a gate after `SimpleNode::RenderUI` stored the
requested count `r`: the clamped count, and the first letters in order. -/
theorem SimpleNode_RenderUI_slots (G : Graph) (this : Nat) (node : Node) (name : BasicName)
    (k m r : Int) (hderef : G.deref this = some node)
    (hcls : node.cls = NodeClass.Basic name k m) (hm0 : 0 ≤ m) (hm26 : m ≤ 26)
    (hslots : node.input_slots = appendedSlots 0 node.input_slots.length) :
    ∃ node', (SimpleNode.RenderUI G this (some r)).deref this = some node' ∧
      node'.cls = NodeClass.Basic name (clampInputs r m) m ∧
      node'.input_slots = appendedSlots 0 (clampInputs r m).toNat := by
  have hn0 : 0 ≤ clampInputs r m := by
    unfold clampInputs
    by_cases h1 : r > 26
    · simp [h1]
    · by_cases h2 : r < m
      · simp [h1, h2, hm0]
      · simp only [h1, h2, if_false]; omega
  have hn26 : clampInputs r m ≤ 26 := by
    unfold clampInputs
    by_cases h1 : r > 26
    · simp [h1]
    · by_cases h2 : r < m
      · simp [h1, h2, hm26]
      · simp only [h1, h2, if_false]; omega
  have hsz := toSizeT_of_small _ hn0 hn26
  have hG0 : (G.modify this (fun n => { n with
      cls := NodeClass.Basic name (clampInputs r m) m })).deref this =
      some { node with cls := NodeClass.Basic name (clampInputs r m) m } := by
    refine (deref_modify_self _ _ _ ?_).trans ?_
    · intro _; rfl
    · rw [hderef]; rfl
  unfold SimpleNode.RenderUI
  simp only [hderef, hcls, hsz]
  by_cases h1 : (node.input_slots.length : Int) > clampInputs r m
  · simp only [h1, if_true]
    have hshell := shell_shrinkOuter this node.input_slots
      (List.range' (clampInputs r m).toNat
        (node.input_slots.length - (clampInputs r m).toNat)).reverse
      (G.modify this (fun n => { n with cls := NodeClass.Basic name (clampInputs r m) m }))
    have hd := deref_of_shell_eq _ _ hshell this
    rw [hG0] at hd
    cases hG1 : Graph.deref (shrinkOuter this node.input_slots
      (List.range' (clampInputs r m).toNat
        (node.input_slots.length - (clampInputs r m).toNat)).reverse
      (G.modify this (fun n => { n with
        cls := NodeClass.Basic name (clampInputs r m) m }))) this with
    | none => rw [hG1] at hd; exact Option.noConfusion hd
    | some node1 =>
      rw [hG1] at hd
      have hsh : node1.shell = Node.shell { node with
          cls := NodeClass.Basic name (clampInputs r m) m } := Option.some.inj hd
      have hc1 : node1.cls = NodeClass.Basic name (clampInputs r m) m := by
        have := congrArg Node.cls hsh; exact this
      have hs1 : node1.input_slots = node.input_slots := by
        have := congrArg Node.input_slots hsh; exact this
      refine ⟨{ node1 with input_slots := node1.input_slots.take (clampInputs r m).toNat }, ?_,
        hc1, ?_⟩
      · refine (deref_modify_self _ _ _ ?_).trans ?_
        · intro _; rfl
        · rw [hG1]; rfl
      · show node1.input_slots.take (clampInputs r m).toNat = _
        rw [hs1, hslots]
        apply appendedSlots_take
        omega
  · simp only [h1, if_false]
    by_cases h2 : (node.input_slots.length : Int) < clampInputs r m
    · simp only [h2, if_true]
      refine ⟨{ node with
        cls := NodeClass.Basic name (clampInputs r m) m
        input_slots := node.input_slots ++
          appendedSlots node.input_slots.length (clampInputs r m).toNat }, ?_, rfl, ?_⟩
      · refine (deref_modify_self _ _ _ ?_).trans ?_
        · intro _; rfl
        · rw [hG0]; rfl
      · show node.input_slots ++ _ = _
        conv_lhs => rw [hslots]
        rw [appendedSlots_length, Nat.sub_zero]
        apply appendedSlots_append
        omega
    · simp only [h2, if_false]
      refine ⟨_, hG0, rfl, ?_⟩
      show node.input_slots = _
      have : (clampInputs r m).toNat = node.input_slots.length := by omega
      rw [this]; exact hslots

theorem inputLabels_chars (i : Nat) (h : i < 26) :
    (CStr.inputLabels (i * 2)).chars = letter i := by
  have h1 : i * 2 < 52 := by omega
  have h2 : i * 2 % 2 = 0 := by omega
  have h3 : i * 2 / 2 = i := by omega
  simp [CStr.chars, inputLabelsAt, letter, h1, h2, h3]

theorem labels_nodup (n : Nat) (h : n ≤ 26) :
    ((appendedSlots 0 n).map (fun s => s.title.chars)).Nodup := by
  have h26 : ((appendedSlots 0 26).map (fun s => s.title.chars)).Nodup := by decide
  rw [← appendedSlots_take 26 n h, List.map_take]
  exact h26.sublist (List.take_sublist _ _)

/-- C13: for a gate with default input count `m` (between 0 and 26) whose
slots carry the letters in order, and every requested count `r`, after
`SimpleNode::RenderUI` the gate has `numberInputs = clamp(r, m, 26)`, exactly
that many input slots, slot `i` has the title `&inputLabels[2 * i]` with
`i < 26`, which reads as the `i`-th letter, and the labels are pairwise
distinct. -/
theorem resize_slots (G : Graph) (this : Nat) (node : Node) (name : BasicName)
    (k m r : Int) (hderef : G.deref this = some node)
    (hcls : node.cls = NodeClass.Basic name k m) (hm0 : 0 ≤ m) (hm26 : m ≤ 26)
    (hslots : node.input_slots = appendedSlots 0 node.input_slots.length) :
    ∃ node', (SimpleNode.RenderUI G this (some r)).deref this = some node' ∧
      node'.cls = NodeClass.Basic name (clamp r m 26) m ∧
      (node'.input_slots.length : Int) = clamp r m 26 ∧
      (∀ i, i < node'.input_slots.length →
        i < 26 ∧
        node'.input_slots[i]? =
          some { title := CStr.inputLabels (i * 2), kind := NodeSlotPower } ∧
        (CStr.inputLabels (i * 2)).chars = letter i) ∧
      (node'.input_slots.map (fun s => s.title.chars)).Nodup := by
  obtain ⟨node', hd, hc, hs⟩ :=
    SimpleNode_RenderUI_slots G this node name k m r hderef hcls hm0 hm26 hslots
  have hcl := clampInputs_eq_clamp r m hm26
  have hb : 0 ≤ clamp r m 26 ∧ clamp r m 26 ≤ 26 := by
    unfold clamp; omega
  rw [hcl] at hc hs
  have hlen : node'.input_slots.length = (clamp r m 26).toNat := by
    rw [hs, appendedSlots_length]; omega
  refine ⟨node', hd, hc, ?_, ?_, ?_⟩
  · rw [hlen]; omega
  · intro i hi
    have hi26 : i < 26 := by omega
    refine ⟨hi26, ?_, inputLabels_chars i hi26⟩
    rw [hs]
    exact appendedSlots_getElem? _ i (by omega)
  · rw [hs]
    exact labels_nodup _ (by omega)

/-- Witness for C13: gate 1 of `shrinkGraph` (three slots, default 2) asked
for 40 inputs ends with `clamp 40 2 26 = 26` slots. -/
theorem resize_slots_witness :
    ∃ node', (SimpleNode.RenderUI shrinkGraph 1 (some 40)).deref 1 = some node' ∧
      node'.cls = NodeClass.Basic BasicName.And (clamp 40 2 26) 2 ∧
      (node'.input_slots.length : Int) = clamp 40 2 26 ∧
      (∀ i, i < node'.input_slots.length →
        i < 26 ∧
        node'.input_slots[i]? =
          some { title := CStr.inputLabels (i * 2), kind := NodeSlotPower } ∧
        (CStr.inputLabels (i * 2)).chars = letter i) ∧
      (node'.input_slots.map (fun s => s.title.chars)).Nodup :=
  resize_slots shrinkGraph 1 (exampleGate 1 BasicName.And 2 3 [outWire 2 2 1, wire 1 0 3])
    BasicName.And 3 2 40 (by decide) (by decide) (by decide) (by decide) (by decide)

/-- C14, as stated, fails: a Not gate with one input slot asked for 5 inputs
ends with `numberInputs = 5` and five input slots. -/
theorem not_gate_grows :
    (notGraph true).deref 1 = some (exampleGate 1 BasicName.Not 1 1 [wire 1 0 2]) ∧
    (exampleGate 1 BasicName.Not 1 1 [wire 1 0 2]).input_slots.length = 1 ∧
    (SimpleNode.RenderUI (notGraph true) 1 (some 5)).deref 1 =
      some (exampleGate 1 BasicName.Not 1 5 [wire 1 0 2]) ∧
    (exampleGate 1 BasicName.Not 1 5 [wire 1 0 2]).input_slots.length = 5 := by
  decide

/-- C14, amended: a Not gate has default input count 1 and is resized like
every other gate: for every requested count `r` it has `clamp(r, 1, 26)`
input slots afterwards, which is one slot exactly when `r <= 1`. -/
theorem not_gate_resizes (G : Graph) (this : Nat) (node : Node) (k r : Int)
    (hderef : G.deref this = some node)
    (hcls : node.cls = NodeClass.Basic BasicName.Not k 1)
    (hslots : node.input_slots = appendedSlots 0 node.input_slots.length) :
    ∃ node', (SimpleNode.RenderUI G this (some r)).deref this = some node' ∧
      node'.cls = NodeClass.Basic BasicName.Not (clamp r 1 26) 1 ∧
      (node'.input_slots.length : Int) = clamp r 1 26 ∧
      (node'.input_slots.length = 1 ↔ r ≤ 1) := by
  obtain ⟨node', hd, hc, hs⟩ :=
    SimpleNode_RenderUI_slots G this node BasicName.Not k 1 r hderef hcls (by decide)
      (by decide) hslots
  have hcl := clampInputs_eq_clamp r 1 (by decide)
  rw [hcl] at hc hs
  have hlen : node'.input_slots.length = (clamp r 1 26).toNat := by
    rw [hs, appendedSlots_length]; omega
  refine ⟨node', hd, hc, ?_, ?_⟩
  · rw [hlen]; unfold clamp; omega
  · rw [hlen]; unfold clamp; omega

/-- Witness for the amended C14: the Not gate of `notGraph` asked for 5
inputs. -/
theorem not_gate_resizes_witness :
    ∃ node', (SimpleNode.RenderUI (notGraph true) 1 (some 5)).deref 1 = some node' ∧
      node'.cls = NodeClass.Basic BasicName.Not (clamp 5 1 26) 1 ∧
      (node'.input_slots.length : Int) = clamp 5 1 26 ∧
      (node'.input_slots.length = 1 ↔ (5 : Int) ≤ 1) :=
  not_gate_resizes (notGraph true) 1 (exampleGate 1 BasicName.Not 1 1 [wire 1 0 2]) 1 5
    (by decide) (by decide) (by decide)

/-! ## Removing a connection -/

theorem deref_modify (G : Graph) (a p : Nat) (f : Node → Node)
    (hid : ∀ n, (f n).id = n.id) :
    (G.modify a f).deref p = (G.deref p).map (fun n => if n.id = a then f n else n) := by
  rw [modify_eq_map]
  exact deref_map_of_id G (fun n => if n.id = a then f n else n)
    (fun n => by by_cases h : n.id = a <;> simp [h, hid]) p

theorem id_of_deref {G : Graph} {p : Nat} {n : Node} (h : G.deref p = some n) : n.id = p := by
  have := List.find?_some h
  simpa using this

theorem mem_of_deref {G : Graph} {p : Nat} {n : Node} (h : G.deref p = some n) : n ∈ G :=
  List.mem_of_find?_eq_some h

/-- The node at a live address after `((Node *)a)->DeleteConnection(c)`. -/
theorem deref_DeleteConnection (G : Graph) (a p : Nat) (c : Connection) (n : Node)
    (h : G.deref p = some n) :
    (G.DeleteConnection a c).deref p =
      some (if p = a then { n with connections := n.connections.erase c } else n) := by
  unfold Graph.DeleteConnection
  rw [deref_modify G a p (fun n => n.DeleteConnection c) (fun _ => rfl), h]
  have hid := id_of_deref h
  by_cases hp : p = a
  · have hna : n.id = a := hid.trans hp
    simp [hp, hna, Node.DeleteConnection]
  · have hna : ¬ n.id = a := fun h2 => hp (hid.symm.trans h2)
    simp [hp, hna]

/-- When the connection in the visited cell joins two different nodes, the
loop body applies `DeleteConnection` with that value to both endpoints. -/
theorem removeBody_eq (G : Graph) (node : Nat) (deleted : Connection → Bool) (index : Nat)
    (stale : List Connection) (c : Connection)
    (hcell : cell G node stale index = some c) (hout : c.output_node = node)
    (hdel : deleted c = true) (hne : c.input_node ≠ c.output_node) :
    (removeBody node deleted index G stale).1 =
      (G.DeleteConnection c.input_node c).DeleteConnection c.output_node c := by
  have hne2 : c.input_node ≠ node := hout ▸ hne
  have hst : staleAfter G node stale c.input_node c = stale := by
    simp [staleAfter, hne2]
  have hcell2 : cell (G.DeleteConnection c.input_node c) node stale index = some c := by
    unfold cell
    rw [connectionsOf_DeleteConnection_of_ne G _ _ c hne2]
    exact hcell
  unfold removeBody
  simp only [hcell, hout, ne_eq, not_true_eq_false, if_false, hdel, if_true]
  simp only [hst, hcell2]
  rw [hout]

theorem erase_cases (L : List Connection) (c : Connection) :
    (c ∉ L ∧ L.erase c = L) ∨
    (∃ l1 l2, c ∉ l1 ∧ L = l1 ++ c :: l2 ∧ L.erase c = l1 ++ l2) := by
  by_cases h : c ∈ L
  · exact Or.inr (List.exists_erase_eq h)
  · exact Or.inl ⟨h, List.erase_of_not_mem h⟩

/-- One pass of the loop body on a connection from a node to itself.  In
`selfLoopGraph` the list of node 1 is `[s, x, s]` with `s` the self-loop;
removing `s` (visited in cell 0) erases the first `s` and then, because the
reference now designates the next entry, erases `x` from the list of node 1,
an entry that is not equal to `s`; the second `s` stays. -/
theorem remove_self_loop_erases_other :
    cell selfLoopGraph 1 [] 0 = some (selfLoop 1) ∧
    selfLoopGraph.connectionsOf 1 = [selfLoop 1, testWire2 2 1, selfLoop 1] ∧
    (removeBody 1 (fun c => c = selfLoop 1) 0 selfLoopGraph []).1.connectionsOf 1 =
      [selfLoop 1] ∧
    (removeBody 1 (fun c => c = selfLoop 1) 0 selfLoopGraph []).1.connectionsOf 2 =
      [testWire2 2 1] := by
  decide

/-- Removing a connection `c` that joins two different nodes (the loop body of "Render output connections" on the cell that holds `c`,
reported deleted) applies `DeleteConnection(c)` to both endpoints: the list of
each endpoint either does not contain `c` and is unchanged, or splits as
`l1 ++ c :: l2` with `c` not in `l1` and becomes `l1 ++ l2`; the list of
every other node, and every other member of every node, is unchanged. -/
theorem remove_connection_erases (G : Graph) (node : Nat) (deleted : Connection → Bool)
    (index : Nat) (stale : List Connection) (c : Connection)
    (hcell : cell G node stale index = some c) (hout : c.output_node = node)
    (hdel : deleted c = true) (hne : c.input_node ≠ c.output_node) :
    ∀ p n, G.deref p = some n →
      ∃ n', (removeBody node deleted index G stale).1.deref p = some n' ∧
        n'.shell = n.shell ∧
        ((p = c.input_node ∨ p = c.output_node) →
          (c ∉ n.connections ∧ n'.connections = n.connections) ∨
          (∃ l1 l2, c ∉ l1 ∧ n.connections = l1 ++ c :: l2 ∧ n'.connections = l1 ++ l2)) ∧
        (p ≠ c.input_node → p ≠ c.output_node → n'.connections = n.connections) := by
  intro p n hp
  rw [removeBody_eq G node deleted index stale c hcell hout hdel hne]
  have h1 := deref_DeleteConnection G c.input_node p c n hp
  by_cases ha : p = c.input_node
  · have hb : ¬ p = c.output_node := fun h => hne (ha.symm.trans h)
    rw [if_pos ha] at h1
    have h2 := deref_DeleteConnection _ c.output_node p c _ h1
    rw [if_neg hb] at h2
    exact ⟨_, h2, rfl, fun _ => erase_cases n.connections c, fun h => absurd ha h⟩
  · rw [if_neg ha] at h1
    have h2 := deref_DeleteConnection _ c.output_node p c _ h1
    by_cases hb : p = c.output_node
    · rw [if_pos hb] at h2
      exact ⟨_, h2, rfl, fun _ => erase_cases n.connections c, fun _ h => absurd hb h⟩
    · rw [if_neg hb] at h2
      exact ⟨n, h2, rfl, fun h => absurd h (not_or.mpr ⟨ha, hb⟩), fun _ _ => rfl⟩

/-- An instance of `remove_connection_erases`: in the two-switch graph the
connection from the switch at 2 to input A of the gate at 1 is removed; the
instance shown is the gate's list. -/
theorem remove_connection_erases_witness :
    ∃ n', (removeBody 2 (fun _ => true) 0 (twoInputGraph BasicName.And true false) []).1.deref 1 =
        some n' ∧
      n'.shell = (exampleGate 1 BasicName.And 2 2 [wire 1 0 2, wire 1 1 3]).shell ∧
      ((1 = (wire 1 0 2).input_node ∨ 1 = (wire 1 0 2).output_node) →
        (wire 1 0 2 ∉ (exampleGate 1 BasicName.And 2 2 [wire 1 0 2, wire 1 1 3]).connections ∧
          n'.connections =
            (exampleGate 1 BasicName.And 2 2 [wire 1 0 2, wire 1 1 3]).connections) ∨
        (∃ l1 l2, wire 1 0 2 ∉ l1 ∧
          (exampleGate 1 BasicName.And 2 2 [wire 1 0 2, wire 1 1 3]).connections =
            l1 ++ wire 1 0 2 :: l2 ∧ n'.connections = l1 ++ l2)) ∧
      (1 ≠ (wire 1 0 2).input_node → 1 ≠ (wire 1 0 2).output_node →
        n'.connections =
          (exampleGate 1 BasicName.And 2 2 [wire 1 0 2, wire 1 1 3]).connections) :=
  remove_connection_erases (twoInputGraph BasicName.And true false) 2 (fun _ => true) 0 []
    (wire 1 0 2) (by decide) (by decide) rfl (by decide) 1
    (exampleGate 1 BasicName.And 2 2 [wire 1 0 2, wire 1 1 3]) (by decide)

/-! ## Termination of `State()` on acyclic graphs -/

theorem basicState_mono (name : BasicName) (this : Nat) (n : Int)
    (up up2 : Nat → Option PowerState) (hup : ∀ q s, up q = some s → up2 q = some s)
    (conns : List Connection) :
    ∀ (state nc : Int) (s : PowerState),
      basicState name this n up conns state nc = some s →
      basicState name this n up2 conns state nc = some s := by
  induction conns with
  | nil => intro state nc s h; exact h
  | cons x rest ih =>
    intro state nc s h
    unfold basicState at h ⊢
    by_cases hx : x.input_node = this
    · simp only [hx, if_true] at h ⊢
      rcases hv : up x.output_node with _ | _ | _ | _
      · rw [hv] at h; exact Option.noConfusion h
      · rw [hv] at h; rw [hup _ _ hv]; exact ih _ _ _ h
      · rw [hv] at h; rw [hup _ _ hv]; exact ih _ _ _ h
      · rw [hv] at h; rw [hup _ _ hv]; exact h
    · simp only [hx, if_false] at h ⊢
      exact ih _ _ _ h

/-- More fuel does not change a result that was reached. -/
theorem State_mono (G : Graph) (now : Int) :
    ∀ (fuel : Nat) (p : Nat) (s : PowerState),
      State fuel G now p = some s → State (fuel + 1) G now p = some s := by
  intro fuel
  induction fuel with
  | zero => intro p s h; exact Option.noConfusion h
  | succ f ih =>
    intro p s h
    unfold State at h ⊢
    cases hd : G.deref p with
    | none => rw [hd] at h; exact Option.noConfusion h
    | some node =>
      rw [hd] at h
      simp only at h ⊢
      cases hc : node.cls with
      | Basic name n d =>
        rw [hc] at h
        exact basicState_mono name p n _ _ ih _ _ _ _ h
      | Switch powered => rw [hc] at h; exact h
      | Clock cycle last_cycle => rw [hc] at h; exact h
      | Light =>
        rw [hc] at h
        cases hl : node.connections with
        | nil => rw [hl] at h; exact h
        | cons x rest => rw [hl] at h; exact ih _ _ h
      | Test => rw [hc] at h; exact h

theorem State_mono_le (G : Graph) (now : Int) (fuel : Nat) (p : Nat) (s : PowerState)
    (h : State fuel G now p = some s) :
    ∀ fuel2, fuel ≤ fuel2 → State fuel2 G now p = some s := by
  intro fuel2 hle
  induction hle with
  | refl => exact h
  | step _ ih => exact State_mono G now _ p s ih

/-- A gate query returns as soon as every upstream query of an incoming
connection returns. -/
theorem basicState_total (name : BasicName) (this : Nat) (n : Int)
    (up : Nat → Option PowerState) (conns : List Connection)
    (hup : ∀ x ∈ incoming this conns, ∃ s, up x.output_node = some s) :
    ∀ state nc : Int, ∃ s, basicState name this n up conns state nc = some s := by
  induction conns with
  | nil =>
    intro state nc
    unfold basicState
    by_cases h1 : nc ≠ n
    · exact ⟨_, by rw [if_pos h1]⟩
    · by_cases h2 : name.resultTransformBlock state ≠ 0
      · exact ⟨_, by rw [if_neg h1, if_pos h2]⟩
      · exact ⟨_, by rw [if_neg h1, if_neg h2]⟩
  | cons x rest ih =>
    intro state nc
    unfold basicState
    by_cases hx : x.input_node = this
    · have hrest : ∀ y ∈ incoming this rest, ∃ s, up y.output_node = some s := by
        intro y hy
        apply hup
        simp only [incoming, List.filter_cons, hx, decide_True, if_true]
        exact List.mem_cons_of_mem _ hy
      obtain ⟨s, hs⟩ := hup x (by simp [incoming, hx])
      simp only [hx, if_true, hs]
      match s with
      | PowerState.on => exact ih hrest _ _
      | PowerState.off => exact ih hrest _ _
      | PowerState.broken => exact ⟨_, rfl⟩
    · have hrest : ∀ y ∈ incoming this rest, ∃ s, up y.output_node = some s := by
        intro y hy
        apply hup
        simpa [incoming, hx] using hy
      simp only [hx, if_false]
      exact ih hrest _ _

theorem mem_edges {G : Graph} {m : Node} {c : Connection} (hm : m ∈ G)
    (hc : c ∈ m.connections) : feeds G c.output_node c.input_node := by
  unfold feeds edges
  exact List.mem_flatMap.mpr ⟨m, hm, List.mem_map.mpr ⟨c, hc, rfl⟩⟩

/-- An acyclic relation carried by finitely many pairs is well-founded. -/
theorem feeds_wf (G : Graph) (hac : Acyclic G) : WellFounded (feeds G) := by
  haveI : IsStrictOrder Nat (Relation.TransGen (feeds G)) :=
    { irrefl := hac, trans := fun _ _ _ => Relation.TransGen.trans }
  have hfin : ({x | x ∈ (edges G).map Prod.fst} ∪ {x | x ∈ (edges G).map Prod.snd}).Finite :=
    (List.finite_toSet _).union (List.finite_toSet _)
  have hwf := Set.Finite.wellFoundedOn (r := Relation.TransGen (feeds G)) hfin
  rw [Set.wellFoundedOn_iff] at hwf
  refine Subrelation.wf ?_ hwf
  intro a b hab
  refine ⟨Relation.TransGen.single hab, Or.inl ?_, Or.inr ?_⟩
  · exact List.mem_map.mpr ⟨(a, b), hab, rfl⟩
  · exact List.mem_map.mpr ⟨(a, b), hab, rfl⟩

/-- A rank that increases along every recorded connection rules out cycles. -/
theorem acyclic_of_rank (G : Graph) (rank : Nat → Nat)
    (h : ∀ e ∈ edges G, rank e.1 < rank e.2) : Acyclic G := by
  have key : ∀ a b, Relation.TransGen (feeds G) a b → rank a < rank b := by
    intro a b hab
    induction hab with
    | single h1 => exact h _ h1
    | tail _ h2 ih => exact lt_trans ih (h _ h2)
  intro p hp
  exact lt_irrefl _ (key p p hp)

theorem uniform_fuel (G : Graph) (now : Int) (L : List Connection)
    (h : ∀ x ∈ L, ∃ fuel s, State fuel G now x.output_node = some s) :
    ∃ fuel, ∀ x ∈ L, ∃ s, State fuel G now x.output_node = some s := by
  induction L with
  | nil => exact ⟨0, fun x hx => by simp at hx⟩
  | cons y rest ih =>
    obtain ⟨f1, hf1⟩ := ih (fun x hx => h x (List.mem_cons_of_mem _ hx))
    obtain ⟨f2, s2, hf2⟩ := h y (List.mem_cons_self _ _)
    refine ⟨max f1 f2, ?_⟩
    intro x hx
    rcases List.mem_cons.mp hx with rfl | hx
    · exact ⟨s2, State_mono_le G now f2 _ s2 hf2 _ (le_max_right _ _)⟩
    · obtain ⟨s, hs⟩ := hf1 x hx
      exact ⟨s, State_mono_le G now f1 _ s hs _ (le_max_left _ _)⟩

/-- On an acyclic graph in which every followed connection enters the
querying node and comes from a node of the graph, the query of every live
node returns with some fuel. -/
theorem State_returns (G : Graph) (now : Int) (hac : Acyclic G) (hsound : FollowedSound G) :
    ∀ p node, G.deref p = some node → ∃ fuel s, State fuel G now p = some s := by
  intro p
  induction p using (feeds_wf G hac).induction with
  | _ p ih =>
    intro node hd
    have hmem := mem_of_deref hd
    have hid := id_of_deref hd
    have hupq : ∀ c ∈ node.connections, c ∈ followed node →
        ∃ fuel s, State fuel G now c.output_node = some s := by
      intro c hc hfol
      obtain ⟨hin, hlive⟩ := hsound node hmem c hfol
      have hf : feeds G c.output_node p := by
        rw [← hid, ← hin]
        exact mem_edges hmem hc
      cases hq : G.deref c.output_node with
      | none => exact absurd hq hlive
      | some nq => exact ih _ hf nq hq
    cases hc : node.cls with
    | Basic name n d =>
      have hfol : followed node = incoming p node.connections := by
        simp only [followed, hc, hid]
      obtain ⟨F, hF⟩ := uniform_fuel G now (incoming p node.connections) (by
        intro x hx
        exact hupq x (List.mem_filter.mp hx).1 (by rw [hfol]; exact hx))
      obtain ⟨s, hs⟩ := basicState_total name p n (State F G now) node.connections hF 0 0
      exact ⟨F + 1, s, by simp only [State, hd, hc]; exact hs⟩
    | Switch powered => exact ⟨1, _, by simp only [State, hd, hc]; rfl⟩
    | Clock cycle last_cycle => exact ⟨1, _, by simp only [State, hd, hc]; rfl⟩
    | Light =>
      cases hl : node.connections with
      | nil => exact ⟨1, _, by simp only [State, hd, hc, hl]; rfl⟩
      | cons x rest =>
        have hfol : x ∈ followed node := by
          simp [followed, hc, hl]
        obtain ⟨F, s, hs⟩ := hupq x (by rw [hl]; exact List.mem_cons_self _ _) hfol
        exact ⟨F + 1, s, by simp only [State, hd, hc, hl]; exact hs⟩
    | Test => exact ⟨1, _, by simp only [State, hd, hc]; rfl⟩

theorem uniform_fuel_nodes (G : Graph) (now : Int) (L : List Node)
    (h : ∀ m ∈ L, ∃ fuel s, State fuel G now m.id = some s) :
    ∃ fuel, ∀ m ∈ L, ∃ s, State fuel G now m.id = some s := by
  induction L with
  | nil => exact ⟨0, fun x hx => by simp at hx⟩
  | cons y rest ih =>
    obtain ⟨f1, hf1⟩ := ih (fun x hx => h x (List.mem_cons_of_mem _ hx))
    obtain ⟨f2, s2, hf2⟩ := h y (List.mem_cons_self _ _)
    refine ⟨max f1 f2, ?_⟩
    intro x hx
    rcases List.mem_cons.mp hx with rfl | hx
    · exact ⟨s2, State_mono_le G now f2 _ s2 hf2 _ (le_max_right _ _)⟩
    · obtain ⟨s, hs⟩ := hf1 x hx
      exact ⟨s, State_mono_le G now f1 _ s hs _ (le_max_left _ _)⟩

theorem deref_of_mem (G : Graph) (m : Node) (hm : m ∈ G) : ∃ n, G.deref m.id = some n := by
  cases h : G.deref m.id with
  | none =>
    have := List.find?_eq_none.mp h m hm
    simp at this
  | some n => exact ⟨n, rfl⟩

/-- The two conditions "every `output_node` is a node of the graph" and
"every connection in the list of a Light enters it" make every followed
connection sound. -/
theorem followedSound_of_live (G : Graph) (hlive : UpstreamLive G)
    (hlight : LightsOnlyIncoming G) : FollowedSound G := by
  intro m hm c hc
  cases hcls : m.cls with
  | Basic name n d =>
    simp only [followed, hcls] at hc
    have hc2 := List.mem_filter.mp hc
    exact ⟨by simpa using hc2.2, hlive m hm c hc2.1⟩
  | Switch powered => simp [followed, hcls] at hc
  | Clock cycle last_cycle => simp [followed, hcls] at hc
  | Light =>
    simp only [followed, hcls] at hc
    have hc2 := List.mem_of_mem_take hc
    exact ⟨hlight m hm hcls c hc2, hlive m hm c hc2⟩
  | Test => simp [followed, hcls] at hc

/-- The query of an address that is not a node of the graph never returns. -/
theorem State_of_dangling (G : Graph) (now : Int) (p : Nat) (h : G.deref p = none) :
    ∀ fuel, State fuel G now p = none := by
  intro fuel
  cases fuel with
  | zero => rfl
  | succ f => simp only [State, h]

/-- The query of a gate whose first connection is incoming and comes from an
address that is not a node of the graph never returns. -/
theorem State_of_dangling_first (G : Graph) (now : Int) (p : Nat) (node : Node)
    (name : BasicName) (n d : Int) (x : Connection) (rest : List Connection)
    (hd : G.deref p = some node) (hc : node.cls = NodeClass.Basic name n d)
    (hl : node.connections = x :: rest) (hin : x.input_node = p)
    (hq : G.deref x.output_node = none) :
    ∀ fuel, State fuel G now p = none := by
  intro fuel
  cases fuel with
  | zero => rfl
  | succ f =>
    simp only [State, hd, hc, hl, basicState, hin, if_true, State_of_dangling G now _ hq f]

/-- The query of a Light whose first connection has the Light itself as
`output_node` never returns. -/
theorem State_of_light_self (G : Graph) (now : Int) (p : Nat) (node : Node)
    (x : Connection) (rest : List Connection)
    (hd : G.deref p = some node) (hc : node.cls = NodeClass.Light)
    (hl : node.connections = x :: rest) (hout : x.output_node = p) :
    ∀ fuel, State fuel G now p = none := by
  intro fuel
  induction fuel with
  | zero => rfl
  | succ f ih =>
    simp only [State, hd, hc, hl, hout]
    exact ih

/-- C19, as stated, fails: acyclicity alone does not make every query
return.  After `danglingRun`, a run of ordinary mutations from the empty
graph, the relation is acyclic and gate 2 is a node of the graph, but its
list holds an incoming connection whose `output_node` is the deleted gate 1,
and its query returns for no amount of fuel.  In `lightLoopGraph` the
relation is acyclic and every endpoint is a node of the graph, but the first
connection of the Light leaves it, so the query of the Light calls itself
and returns for no amount of fuel. -/
theorem acyclic_query_never_returns :
    (feasibleRun danglingRun [] = true ∧ Acyclic (runMutations danglingRun []) ∧
      (runMutations danglingRun []).deref 2 ≠ none ∧
      ∀ fuel now, State fuel (runMutations danglingRun []) now 2 = none) ∧
    (Acyclic lightLoopGraph ∧
      (∀ m ∈ lightLoopGraph, ∀ c ∈ m.connections,
        lightLoopGraph.deref c.input_node ≠ none ∧
        lightLoopGraph.deref c.output_node ≠ none) ∧
      ∀ fuel now, State fuel lightLoopGraph now 1 = none) := by
  have hG : runMutations danglingRun [] =
      [exampleGate 2 BasicName.And 2 3 [outWire 2 2 1], exampleSwitch 3 true [wire 1 0 3]] := by
    decide
  refine ⟨⟨by decide, ?_, by decide, ?_⟩, ?_, by decide, ?_⟩
  · exact acyclic_of_rank _ (fun p => if p = 3 then 0 else if p = 1 then 1 else 2) (by decide)
  · intro fuel now
    rw [hG]
    exact State_of_dangling_first _ now 2 (exampleGate 2 BasicName.And 2 3 [outWire 2 2 1])
      BasicName.And 3 2 (outWire 2 2 1) [] (by decide) (by decide) (by decide) (by decide)
      (by decide) fuel
  · exact acyclic_of_rank _ (fun p => p) (by decide)
  · intro fuel now
    exact State_of_light_self lightLoopGraph now 1 (exampleLight 1 [outWire 2 0 1])
      (outWire 2 0 1) [] (by decide) (by decide) (by decide) (by decide) fuel

/-- C19, amended: on a graph whose relation "output_node feeds input_node"
over the recorded connections has no cycle, and in which every connection
that a query follows (the incoming connections of a gate, the first
connection of a Light) enters the querying node and comes from a node of the
graph, there is an amount of fuel from which the `State()` query of every
node returns one and the same value of off, on, broken: the recursion is
total. -/
theorem state_terminates (G : Graph) (now : Int) (hac : Acyclic G) (hsound : FollowedSound G) :
    ∃ fuel, ∀ p node, G.deref p = some node →
      ∃ s, ∀ fuel2, fuel ≤ fuel2 → State fuel2 G now p = some s := by
  obtain ⟨F, hF⟩ := uniform_fuel_nodes G now G (by
    intro m hm
    obtain ⟨n, hn⟩ := deref_of_mem G m hm
    exact State_returns G now hac hsound m.id n hn)
  refine ⟨F, ?_⟩
  intro p node hd
  obtain ⟨s, hs⟩ := hF node (mem_of_deref hd)
  rw [id_of_deref hd] at hs
  exact ⟨s, State_mono_le G now F p s hs⟩

/-- Witness for the amended C19: the chain switch, Not gate, Light. -/
theorem state_terminates_witness :
    ∃ fuel, ∀ p node, chainGraph.deref p = some node →
      ∃ s, ∀ fuel2, fuel ≤ fuel2 → State fuel2 chainGraph 0 p = some s :=
  state_terminates chainGraph 0 (acyclic_of_rank chainGraph (fun p => 3 - p) (by decide))
    (by decide)

/-! ## The bookkeeping invariant -/

/-- C12, as stated, fails.  Storing the same connection twice leaves it twice
in both endpoint lists; a connection from a node to itself is pushed twice
on the one list; and after `shrinkRun` the connection from gate 1 to input C
of gate 2 is present in the list of gate 2 only. -/
theorem exactly_once_fails :
    (feasibleRun duplicateRun [] = true ∧ ¬ ExactlyOnce (runMutations duplicateRun [])) ∧
    (feasibleRun selfLoopRun [] = true ∧ ¬ ExactlyOnce (runMutations selfLoopRun [])) ∧
    (feasibleRun shrinkRun [] = true ∧ ¬ ExactlyOnce (runMutations shrinkRun [])) := by
  decide

theorem WellRecorded_nil : WellRecorded [] :=
  { distinct := List.nodup_nil
    nodup := fun m hm => by simp at hm
    ends := fun m hm => by simp at hm
    owns := fun m hm => by simp at hm
    both := fun m hm => by simp at hm }

/-- A pass over the nodes that keeps addresses and filters every list with
one and the same test preserves the invariant. -/
theorem WellRecorded_map_filter (G : Graph) (g : Node → Node) (keep : Connection → Bool)
    (hid : ∀ m, (g m).id = m.id)
    (hc : ∀ m, (g m).connections = m.connections.filter keep)
    (h : WellRecorded G) : WellRecorded (G.map g) := by
  have hmem : ∀ m2 ∈ G.map g, ∃ m ∈ G, g m = m2 := fun m2 h2 => List.mem_map.mp h2
  refine ⟨?_, ?_, ?_, ?_, ?_⟩
  · have : (G.map g).map (fun n => n.id) = G.map (fun n => n.id) := by
      rw [List.map_map]
      apply List.map_congr_left
      intro m _
      exact hid m
    show ((G.map g).map (fun n => n.id)).Nodup
    rw [this]
    exact h.distinct
  · intro m2 h2
    obtain ⟨m, hm, rfl⟩ := hmem m2 h2
    rw [hc]
    exact (h.nodup m hm).filter _
  · intro m2 h2 c hcm
    obtain ⟨m, hm, rfl⟩ := hmem m2 h2
    rw [hc] at hcm
    exact h.ends m hm c (List.mem_filter.mp hcm).1
  · intro m2 h2 c hcm
    obtain ⟨m, hm, rfl⟩ := hmem m2 h2
    rw [hc] at hcm
    rw [hid]
    exact h.owns m hm c (List.mem_filter.mp hcm).1
  · intro m2 h2 c hcm p hp
    obtain ⟨m, hm, rfl⟩ := hmem m2 h2
    rw [hc] at hcm
    obtain ⟨hcm1, hk⟩ := List.mem_filter.mp hcm
    obtain ⟨m3, hm3, hid3, hc3⟩ := h.both m hm c hcm1 p hp
    refine ⟨g m3, List.mem_map_of_mem _ hm3, ?_, ?_⟩
    · rw [hid]; exact hid3
    · rw [hc]; exact List.mem_filter.mpr ⟨hc3, hk⟩

/-- Under the invariant, `DeleteConnection(c)` on both endpoints of a
connection that joins two different nodes filters `c` out of every list. -/
theorem remove_eq_filter (G : Graph) (h : WellRecorded G) (c : Connection)
    (hne : c.input_node ≠ c.output_node) :
    (G.DeleteConnection c.input_node c).DeleteConnection c.output_node c =
      G.map (fun m => { m with connections := m.connections.filter (fun d => d != c) }) := by
  simp only [Graph.DeleteConnection, modify_eq_map, List.map_map]
  apply List.map_congr_left
  intro m hm
  have herase := (h.nodup m hm).erase_eq_filter c
  have hid : (m.DeleteConnection c).id = m.id := rfl
  simp only [Function.comp_apply]
  by_cases ha : m.id = c.input_node
  · have hb : ¬ m.id = c.output_node := fun hb => hne (ha.symm.trans hb)
    rw [if_pos ha, hid, if_neg hb]
    simp only [Node.DeleteConnection, herase]
  · rw [if_neg ha]
    by_cases hb : m.id = c.output_node
    · rw [if_pos hb]
      simp only [Node.DeleteConnection, herase]
    · rw [if_neg hb]
      have hnot : c ∉ m.connections := by
        intro hcm
        rcases h.owns m hm c hcm with h1 | h1
        · exact ha h1.symm
        · exact hb h1.symm
      have hfil : m.connections.filter (fun d => d != c) = m.connections := by
        rw [List.filter_eq_self]
        intro d hd
        have : d ≠ c := fun hdc => hnot (hdc ▸ hd)
        simpa using this
      rw [hfil]

theorem WellRecorded_remove (G : Graph) (h : WellRecorded G) (c : Connection)
    (hne : c.input_node ≠ c.output_node) :
    WellRecorded ((G.DeleteConnection c.input_node c).DeleteConnection c.output_node c) := by
  rw [remove_eq_filter G h c hne]
  exact WellRecorded_map_filter G _ (fun d => d != c) (fun _ => rfl) (fun _ => rfl) h

theorem mem_connectionsOf {G : Graph} {p : Nat} {c : Connection}
    (h : c ∈ G.connectionsOf p) : ∃ m ∈ G, m.id = p ∧ c ∈ m.connections := by
  unfold Graph.connectionsOf at h
  cases hd : G.deref p with
  | none => rw [hd] at h; simp at h
  | some n =>
    rw [hd] at h
    exact ⟨n, mem_of_deref hd, id_of_deref hd, h⟩

theorem staleAfter_forall (P : Connection → Prop) (G : Graph) (this : Nat)
    (stale : List Connection) (p : Nat) (conn : Connection)
    (hlive : ∀ c ∈ G.connectionsOf this, P c) (hs : ∀ c ∈ stale, P c) :
    ∀ c ∈ staleAfter G this stale p conn, P c := by
  unfold staleAfter
  by_cases h : p = this ∧ conn ∈ G.connectionsOf this
  · rw [if_pos h]
    cases hl : (G.connectionsOf this).getLast? with
    | none => exact hs
    | some last =>
      intro c hc
      rcases List.mem_cons.mp hc with rfl | hc
      · exact hlive _ (List.mem_of_mem_getLast? hl)
      · exact hs c hc
  · rw [if_neg h]; exact hs

/-- The loop body of "Render output connections" keeps the invariant, and
the cells left behind the end still hold connections between different
nodes. -/
theorem removeBody_preserves (node : Nat) (deleted : Connection → Bool) (index : Nat)
    (G : Graph) (stale : List Connection) (h : WellRecorded G)
    (hs : ∀ c ∈ stale, c.input_node ≠ c.output_node) :
    WellRecorded (removeBody node deleted index G stale).1 ∧
    ∀ c ∈ (removeBody node deleted index G stale).2, c.input_node ≠ c.output_node := by
  have hlive : ∀ c ∈ G.connectionsOf node, c.input_node ≠ c.output_node := by
    intro c hc
    obtain ⟨m, hm, _, hcm⟩ := mem_connectionsOf hc
    exact h.ends m hm c hcm
  cases hcell : cell G node stale index with
  | none =>
    unfold removeBody
    simp only [hcell]
    exact ⟨h, hs⟩
  | some c =>
    have hcne : c.input_node ≠ c.output_node := by
      have hmem : c ∈ G.connectionsOf node ++ stale := List.getElem?_mem hcell
      rcases List.mem_append.mp hmem with h1 | h1
      · exact hlive c h1
      · exact hs c h1
    by_cases hout : c.output_node = node
    · by_cases hdel : deleted c = true
      · have hne2 : c.input_node ≠ node := hout ▸ hcne
        have hst : staleAfter G node stale c.input_node c = stale := by
          simp [staleAfter, hne2]
        have hconn : (G.DeleteConnection c.input_node c).connectionsOf node =
            G.connectionsOf node := connectionsOf_DeleteConnection_of_ne G _ _ c hne2
        have hcell2 : cell (G.DeleteConnection c.input_node c) node stale index = some c := by
          unfold cell; rw [hconn]; exact hcell
        unfold removeBody
        simp only [hcell, hout, ne_eq, not_true_eq_false, if_false, hdel, if_true, hst, hcell2]
        constructor
        · have := WellRecorded_remove G h c hcne
          rw [hout] at this
          exact this
        · apply staleAfter_forall _ _ _ _ _ _ _ hs
          rw [hconn]; exact hlive
      · unfold removeBody
        simp only [hcell, hout, ne_eq, not_true_eq_false, if_false, hdel]
        exact ⟨h, hs⟩
    · unfold removeBody
      simp only [hcell, ne_eq, hout, not_false_eq_true, if_true]
      exact ⟨h, hs⟩

theorem removeLoop_preserves (node : Nat) (deleted : Connection → Bool) :
    ∀ (remaining index : Nat) (G : Graph) (stale : List Connection), WellRecorded G →
      (∀ c ∈ stale, c.input_node ≠ c.output_node) →
      WellRecorded (removeLoop node deleted remaining index G stale) := by
  intro remaining
  induction remaining with
  | zero => intro index G stale h _; exact h
  | succ k ih =>
    intro index G stale h hs
    unfold removeLoop
    obtain ⟨h1, h2⟩ := removeBody_preserves node deleted index G stale h hs
    exact ih _ _ _ h1 h2

theorem deref_of_mem_distinct (G : Graph) (hnd : DistinctIds G) (m : Node) (hm : m ∈ G) :
    G.deref m.id = some m := by
  obtain ⟨n, hn⟩ := deref_of_mem G m hm
  rw [hn, List.inj_on_of_nodup_map hnd (mem_of_deref hn) hm (id_of_deref hn)]

theorem WellRecorded_balanced (G : Graph) (h : WellRecorded G) : Balanced G := by
  intro m hm c hc m2 hm2 hend
  obtain ⟨m3, hm3, hid3, hc3⟩ := h.both m hm c hc m2.id hend
  have heq : m3 = m2 := List.inj_on_of_nodup_map h.distinct hm3 hm2 hid3
  rw [heq] at hc3
  rw [List.count_eq_one_of_mem (h.nodup m2 hm2) hc3,
    List.count_eq_one_of_mem (h.nodup m hm) hc]

theorem mem_eraseIdx_of_id_ne (G : Graph) (it : Nat) (node : Node)
    (hit : G[it]? = some node) (m : Node) (hm : m ∈ G) (hne : m.id ≠ node.id) :
    m ∈ G.eraseIdx it := by
  obtain ⟨i, hi, hmi⟩ := List.getElem_of_mem hm
  refine List.mem_eraseIdx_iff_getElem.mpr ⟨i, hi, ?_, hmi⟩
  intro hii
  subst hii
  rw [List.getElem?_eq_getElem hi, hmi] at hit
  exact hne (congrArg Node.id (Option.some.inj hit))

/-- The delete branch keeps the invariant. -/
theorem WellRecorded_deleteNode (G : Graph) (it : Nat) (deleteKey : Bool)
    (h : WellRecorded G) : WellRecorded (deleteNode G it deleteKey) := by
  cases hit : G[it]? with
  | none => unfold deleteNode; simp only [hit]; exact h
  | some node =>
    by_cases hsel : (node.selected && deleteKey) = true
    · have hs1 : node.selected = true := by
        cases hn : node.selected <;> simp [hn] at hsel ⊢
      have hk : deleteKey = true := by
        cases hn : deleteKey <;> simp [hn] at hsel ⊢
      have hmem : node ∈ G := List.mem_iff_getElem?.mpr ⟨it, hit⟩
      have heq := deleteNode_eq G it node hit hs1 h.distinct h.owns
        (WellRecorded_balanced G h)
        (fun c hc hboth => h.ends node hmem c hc (hboth.1.trans hboth.2.symm))
      rw [hk, heq]
      have hmemR : ∀ m2 ∈ (G.eraseIdx it).map (fun m => { m with
          connections := m.connections.filter (fun c => !c.touches node.id) }),
          ∃ m ∈ G, m.id ≠ node.id ∧ m2 = { m with
            connections := m.connections.filter (fun c => !c.touches node.id) } := by
        intro m2 h2
        obtain ⟨m, hm, rfl⟩ := List.mem_map.mp h2
        obtain ⟨hmG, hmid⟩ := id_ne_of_mem_eraseIdx G h.distinct it node hit m hm
        exact ⟨m, hmG, hmid, rfl⟩
      refine ⟨?_, ?_, ?_, ?_, ?_⟩
      · show (((G.eraseIdx it).map _).map (fun n : Node => n.id)).Nodup
        rw [List.map_map]
        exact List.Nodup.sublist ((List.eraseIdx_sublist G it).map _) h.distinct
      · intro m2 h2
        obtain ⟨m, hm, _, rfl⟩ := hmemR m2 h2
        exact (h.nodup m hm).filter _
      · intro m2 h2 c hc
        obtain ⟨m, hm, _, rfl⟩ := hmemR m2 h2
        exact h.ends m hm c (List.mem_filter.mp hc).1
      · intro m2 h2 c hc
        obtain ⟨m, hm, _, rfl⟩ := hmemR m2 h2
        exact h.owns m hm c (List.mem_filter.mp hc).1
      · intro m2 h2 c hc p hp
        obtain ⟨m, hm, _, rfl⟩ := hmemR m2 h2
        obtain ⟨hc1, hk1⟩ := List.mem_filter.mp hc
        obtain ⟨m3, hm3, hid3, hc3⟩ := h.both m hm c hc1 p hp
        have hpne : m3.id ≠ node.id := by
          simp only [Connection.touches, Bool.not_eq_true', Bool.or_eq_false_iff,
            decide_eq_false_iff_not] at hk1
          rw [hid3]
          rcases hp with hp | hp
          · rw [hp]; exact hk1.1
          · rw [hp]; exact hk1.2
        refine ⟨_, List.mem_map_of_mem _ (mem_eraseIdx_of_id_ne G it node hit m3 hm3 hpne),
          hid3, List.mem_filter.mpr ⟨hc3, hk1⟩⟩
    · unfold deleteNode
      simp only [hit, hsel]
      exact h

/-- A node created at a fresh address with an empty list keeps the
invariant. -/
theorem WellRecorded_create (G : Graph) (node : Node) (h : WellRecorded G)
    (hempty : node.connections = []) (hfresh : ∀ m ∈ G, m.id ≠ node.id) :
    WellRecorded (G ++ [node]) := by
  have hcases : ∀ m ∈ G ++ [node], m ∈ G ∨ m = node := by
    intro m hm
    rcases List.mem_append.mp hm with h1 | h1
    · exact Or.inl h1
    · exact Or.inr (by simpa using h1)
  refine ⟨?_, ?_, ?_, ?_, ?_⟩
  · show ((G ++ [node]).map (fun n => n.id)).Nodup
    rw [List.map_append]
    refine List.Nodup.append h.distinct (List.nodup_singleton _) ?_
    simp only [List.map_cons, List.map_nil, List.disjoint_singleton, List.mem_map, not_exists,
      not_and]
    exact fun m hm => hfresh m hm
  · intro m hm
    rcases hcases m hm with h1 | h1
    · exact h.nodup m h1
    · rw [h1, hempty]; exact List.nodup_nil
  · intro m hm c hc
    rcases hcases m hm with h1 | h1
    · exact h.ends m h1 c hc
    · rw [h1, hempty] at hc; simp at hc
  · intro m hm c hc
    rcases hcases m hm with h1 | h1
    · exact h.owns m h1 c hc
    · rw [h1, hempty] at hc; simp at hc
  · intro m hm c hc p hp
    rcases hcases m hm with h1 | h1
    · obtain ⟨m3, hm3, hid3, hc3⟩ := h.both m h1 c hc p hp
      exact ⟨m3, List.mem_append_left _ hm3, hid3, hc3⟩
    · rw [h1, hempty] at hc; simp at hc

/-- A new connection between two different live nodes, not yet in either
endpoint list, keeps the invariant. -/
theorem WellRecorded_add (G : Graph) (c : Connection) (h : WellRecorded G)
    (hne : c.input_node ≠ c.output_node)
    (hla : G.deref c.input_node ≠ none) (hlb : G.deref c.output_node ≠ none)
    (hna : c ∉ G.connectionsOf c.input_node) (hnb : c ∉ G.connectionsOf c.output_node) :
    WellRecorded (newConnection G c) := by
  have heq : newConnection G c = _ := push_back_push_back G c.input_node c.output_node c
  rw [heq]
  have hconn : ∀ m ∈ G, G.connectionsOf m.id = m.connections := by
    intro m hm
    simp [Graph.connectionsOf, deref_of_mem_distinct G h.distinct m hm]
  have hnotin : ∀ m ∈ G, (m.id = c.input_node ∨ m.id = c.output_node) → c ∉ m.connections := by
    intro m hm hend hcm
    rcases hend with he | he
    · exact hna (by rw [← he, hconn m hm]; exact hcm)
    · exact hnb (by rw [← he, hconn m hm]; exact hcm)
  have hmemc : ∀ (m : Node) (d : Connection),
      d ∈ (m.connections ++ (if m.id = c.input_node then [c] else [])) ++
        (if m.id = c.output_node then [c] else []) ↔
      d ∈ m.connections ∨ (d = c ∧ (m.id = c.input_node ∨ m.id = c.output_node)) := by
    intro m d
    by_cases ha : m.id = c.input_node
    · by_cases hb : m.id = c.output_node
      · rw [if_pos ha, if_pos hb]; simp [ha, hb]
      · rw [if_pos ha, if_neg hb]; simp [ha, hb]
    · by_cases hb : m.id = c.output_node
      · rw [if_neg ha, if_pos hb]; simp [ha, hb]
      · rw [if_neg ha, if_neg hb]; simp [ha, hb]
  have hmem : ∀ m2 ∈ G.map (fun n => { n with
      connections := n.connections ++ (if n.id = c.input_node then [c] else []) ++
        (if n.id = c.output_node then [c] else []) }),
      ∃ m ∈ G, m2 = { m with
        connections := m.connections ++ (if m.id = c.input_node then [c] else []) ++
          (if m.id = c.output_node then [c] else []) } := by
    intro m2 h2
    obtain ⟨m, hm, rfl⟩ := List.mem_map.mp h2
    exact ⟨m, hm, rfl⟩
  refine ⟨?_, ?_, ?_, ?_, ?_⟩
  · show ((G.map _).map (fun n : Node => n.id)).Nodup
    rw [List.map_map]
    exact h.distinct
  · intro m2 h2
    obtain ⟨m, hm, rfl⟩ := hmem m2 h2
    show ((m.connections ++ (if m.id = c.input_node then [c] else [])) ++
      (if m.id = c.output_node then [c] else [])).Nodup
    by_cases ha : m.id = c.input_node
    · have hb : ¬ m.id = c.output_node := fun hb => hne (ha.symm.trans hb)
      rw [if_pos ha, if_neg hb, List.append_nil]
      exact List.Nodup.append (h.nodup m hm) (List.nodup_singleton _)
        (List.disjoint_singleton.mpr (hnotin m hm (Or.inl ha)))
    · by_cases hb : m.id = c.output_node
      · rw [if_neg ha, if_pos hb, List.append_nil]
        exact List.Nodup.append (h.nodup m hm) (List.nodup_singleton _)
          (List.disjoint_singleton.mpr (hnotin m hm (Or.inr hb)))
      · rw [if_neg ha, if_neg hb, List.append_nil, List.append_nil]
        exact h.nodup m hm
  · intro m2 h2 d hd
    obtain ⟨m, hm, rfl⟩ := hmem m2 h2
    rcases (hmemc m d).mp hd with h1 | ⟨h1, _⟩
    · exact h.ends m hm d h1
    · rw [h1]; exact hne
  · intro m2 h2 d hd
    obtain ⟨m, hm, rfl⟩ := hmem m2 h2
    show d.input_node = m.id ∨ d.output_node = m.id
    rcases (hmemc m d).mp hd with h1 | ⟨h1, h3⟩
    · exact h.owns m hm d h1
    · rw [h1]
      rcases h3 with h3 | h3
      · exact Or.inl h3.symm
      · exact Or.inr h3.symm
  · intro m2 h2 d hd p hp
    obtain ⟨m, hm, rfl⟩ := hmem m2 h2
    rcases (hmemc m d).mp hd with h1 | ⟨h1, _⟩
    · obtain ⟨m3, hm3, hid3, hc3⟩ := h.both m hm d h1 p hp
      exact ⟨_, List.mem_map_of_mem _ hm3, hid3, (hmemc m3 d).mpr (Or.inl hc3)⟩
    · subst h1
      have hlive : G.deref p ≠ none := by
        rcases hp with hp | hp
        · rw [hp]; exact hla
        · rw [hp]; exact hlb
      cases hdp : G.deref p with
      | none => exact absurd hdp hlive
      | some mp =>
        have hidp : mp.id = p := id_of_deref hdp
        refine ⟨_, List.mem_map_of_mem _ (mem_of_deref hdp), hidp,
          (hmemc mp d).mpr (Or.inr ⟨rfl, ?_⟩)⟩
        rw [hidp]
        exact hp

theorem WellRecorded_modify (G : Graph) (p : Nat) (f : Node → Node)
    (hid : ∀ n, (f n).id = n.id) (hc : ∀ n, (f n).connections = n.connections)
    (h : WellRecorded G) : WellRecorded (G.modify p f) := by
  rw [modify_eq_map]
  apply WellRecorded_map_filter G _ (fun _ => true) _ _ h
  · intro m; by_cases hm : m.id = p <;> simp [hm, hid]
  · intro m; by_cases hm : m.id = p <;> simp [hm, hc]

/-- An edit of the input count that does not take the shrink branch keeps
the invariant. -/
theorem WellRecorded_resize (G : Graph) (this : Nat) (edit : Option Int)
    (h : WellRecorded G) (hs : shrinks G this edit = false) :
    WellRecorded (SimpleNode.RenderUI G this edit) := by
  unfold SimpleNode.RenderUI
  unfold shrinks at hs
  cases hd : G.deref this with
  | none => simp only [hd]; exact h
  | some node =>
    cases edit with
    | none => simp only [hd]; exact h
    | some v =>
      simp only [hd] at hs ⊢
      cases hc : node.cls with
      | Basic name k d =>
        rw [hc] at hs
        simp only [decide_eq_false_iff_not] at hs
        simp only [hs, if_false]
        have h0 := WellRecorded_modify G this (fun n => { n with
          cls := NodeClass.Basic name (clampInputs v d) d }) (fun _ => rfl) (fun _ => rfl) h
        by_cases h2 : (node.input_slots.length : Int) < toSizeT (clampInputs v d)
        · simp only [h2, if_true]
          exact WellRecorded_modify _ this _ (fun _ => rfl) (fun _ => rfl) h0
        · simp only [h2, if_false]
          exact h0
      | Switch powered => exact h
      | Clock cycle last_cycle => exact h
      | Light => exact h
      | Test => exact h

theorem DeleteConnection_comm (G : Graph) (a b : Nat) (c : Connection) :
    (G.DeleteConnection a c).DeleteConnection b c =
      (G.DeleteConnection b c).DeleteConnection a c := by
  simp only [Graph.DeleteConnection, modify_eq_map, List.map_map]
  apply List.map_congr_left
  intro m _
  have hid : (m.DeleteConnection c).id = m.id := rfl
  simp only [Function.comp_apply]
  by_cases ha : m.id = a
  · subst ha
    by_cases hb : m.id = b
    · subst hb
      simp [hid]
    · simp [hid, hb]
  · by_cases hb : m.id = b
    · subst hb
      simp [hid, ha]
    · simp [ha, hb]

/-- Under the invariant, `DeleteConnection(c)` on the `output_node` and then
on the `input_node` of a connection that joins two different nodes keeps the
invariant. -/
theorem WellRecorded_remove_swapped (G : Graph) (h : WellRecorded G) (c : Connection)
    (hne : c.input_node ≠ c.output_node) :
    WellRecorded ((G.DeleteConnection c.output_node c).DeleteConnection c.input_node c) := by
  rw [DeleteConnection_comm]
  exact WellRecorded_remove G h c hne

theorem connectionsOf_DeleteConnection_subset (G : Graph) (a p : Nat) (c d : Connection)
    (hd : d ∈ (G.DeleteConnection a c).connectionsOf p) : d ∈ G.connectionsOf p := by
  cases hp : G.deref p with
  | none =>
    have hnone : (G.DeleteConnection a c).deref p = none := by
      unfold Graph.DeleteConnection
      rw [deref_modify G a p (fun n => n.DeleteConnection c) (fun _ => rfl), hp]
      rfl
    simp [Graph.connectionsOf, hnone] at hd
  | some n =>
    have h1 := deref_DeleteConnection G a p c n hp
    simp only [Graph.connectionsOf, h1, hp] at hd ⊢
    by_cases hpa : p = a
    · rw [if_pos hpa] at hd
      exact List.mem_of_mem_erase hd
    · rw [if_neg hpa] at hd
      exact hd

theorem connectionsOf_modify (G : Graph) (a p : Nat) (f : Node → Node)
    (hid : ∀ n, (f n).id = n.id) (hc : ∀ n, (f n).connections = n.connections) :
    (G.modify a f).connectionsOf p = G.connectionsOf p := by
  unfold Graph.connectionsOf
  rw [deref_modify G a p f hid]
  cases G.deref p with
  | none => rfl
  | some n =>
    by_cases hn : n.id = a
    · simp [hn, hc]
    · simp [hn]

/-- The inner loop of the shrink branch keeps the invariant when every
connection it can visit whose label equals `title` is an incoming connection
of the gate: both calls then erase the visited connection by value. -/
theorem shrinkInner_preserves (this : Nat) (title : CStr) (P : Connection → Prop)
    (hP : ∀ c, P c → c.input_node ≠ c.output_node ∧
      (strcmpEq c.input_slot title = true → c.output_node ≠ this)) :
    ∀ (remaining index : Nat) (G : Graph) (stale : List Connection), WellRecorded G →
      (∀ c ∈ G.connectionsOf this, P c) → (∀ c ∈ stale, P c) →
      WellRecorded (shrinkInner this title remaining index G stale) ∧
      ∀ c ∈ (shrinkInner this title remaining index G stale).connectionsOf this, P c := by
  intro remaining
  induction remaining with
  | zero => intro index G stale h hl _; exact ⟨h, hl⟩
  | succ k ih =>
    intro index G stale h hl hs
    cases hcell : cell G this stale index with
    | none =>
      simp only [shrinkInner, hcell]
      exact ⟨h, hl⟩
    | some c =>
      have hPc : P c := by
        have hmem : c ∈ G.connectionsOf this ++ stale := List.getElem?_mem hcell
        rcases List.mem_append.mp hmem with h1 | h1
        · exact hl c h1
        · exact hs c h1
      by_cases hm : strcmpEq c.input_slot title = true
      · have hout : c.output_node ≠ this := (hP c hPc).2 hm
        have hst : staleAfter G this stale c.output_node c = stale := by
          simp [staleAfter, hout]
        have hconn : (G.DeleteConnection c.output_node c).connectionsOf this =
            G.connectionsOf this := connectionsOf_DeleteConnection_of_ne G _ _ c hout
        have hcell2 : cell (G.DeleteConnection c.output_node c) this stale index = some c := by
          unfold cell; rw [hconn]; exact hcell
        simp only [shrinkInner, hcell, hm, if_true, hst, hcell2]
        apply ih
        · exact WellRecorded_remove_swapped G h c (hP c hPc).1
        · intro d hd
          apply hl
          have := connectionsOf_DeleteConnection_subset _ _ _ _ _ hd
          rw [hconn] at this
          exact this
        · apply staleAfter_forall P _ _ _ _ _ _ hs
          rw [hconn]; exact hl
      · simp only [shrinkInner, hcell, hm]
        exact ih _ _ _ h hl hs

/-- The outer loop of the shrink branch keeps the invariant when no outgoing
connection of the gate carries the label of a slot it visits. -/
theorem shrinkOuter_preserves (this : Nat) (input_slots : List SlotInfo)
    (P : Connection → Prop) (hP : ∀ c, P c → c.input_node ≠ c.output_node) :
    ∀ (indices : List Nat) (G : Graph),
      (∀ i ∈ indices, ∀ slot, input_slots[i]? = some slot → ∀ c, P c →
        strcmpEq c.input_slot slot.title = true → c.output_node ≠ this) →
      WellRecorded G → (∀ c ∈ G.connectionsOf this, P c) →
      WellRecorded (shrinkOuter this input_slots indices G) := by
  intro indices
  induction indices with
  | nil => intro G _ h _; exact h
  | cons i rest ih =>
    intro G hT h hl
    cases hslot : input_slots[i]? with
    | none =>
      simp only [shrinkOuter, hslot]
      exact h
    | some slot =>
      simp only [shrinkOuter, hslot]
      obtain ⟨h1, h2⟩ := shrinkInner_preserves this slot.title P
        (fun c hc => ⟨hP c hc, hT i (List.mem_cons_self _ _) slot hslot c hc⟩)
        (G.connectionsOf this).length 0 G [] h hl (fun c hc => by simp at hc)
      exact ih _ (fun j hj => hT j (List.mem_cons_of_mem _ hj)) h1 h2

theorem mem_drop_of_getElem? {α : Type} (l : List α) (k i : Nat) (x : α)
    (h : l[i]? = some x) (hk : k ≤ i) : x ∈ l.drop k := by
  have : (l.drop k)[i - k]? = some x := by
    rw [List.getElem?_drop, Nat.add_sub_cancel' hk]
    exact h
  exact List.getElem?_mem this

/-- An edit of the input count keeps the invariant when it discards no slot
whose label is the `input_slot` of an outgoing connection of the gate. -/
theorem WellRecorded_resize_guarded (G : Graph) (this : Nat) (edit : Option Int)
    (h : WellRecorded G) (hg : outgoingLabelMatch G this edit = false) :
    WellRecorded (SimpleNode.RenderUI G this edit) := by
  cases hs : shrinks G this edit with
  | false => exact WellRecorded_resize G this edit h hs
  | true =>
    unfold shrinks at hs
    unfold outgoingLabelMatch discardedTitles at hg
    unfold SimpleNode.RenderUI
    cases hd : G.deref this with
    | none => simp [hd] at hs
    | some node =>
      cases edit with
      | none => simp [hd] at hs
      | some v =>
        simp only [hd] at hs hg ⊢
        cases hc : node.cls with
        | Basic name k d =>
          rw [hc] at hs
          simp only [hc] at hg
          simp only [decide_eq_true_eq] at hs
          rw [if_pos hs] at hg
          simp only [hs, if_true]
          have hguard : ∀ c ∈ G.connectionsOf this, c.output_node = this →
              ∀ slot ∈ node.input_slots.drop (clampInputs v d).toNat,
                strcmpEq c.input_slot slot.title = false := by
            intro c hcm hout slot hsl
            have h1 := List.any_eq_false.mp hg c hcm
            simp only [hout, decide_True, Bool.true_and] at h1
            have h2 := List.any_eq_false.mp (by simpa using h1) slot.title
              (List.mem_map_of_mem _ hsl)
            simpa using h2
          have h0 := WellRecorded_modify G this (fun n => { n with
            cls := NodeClass.Basic name (clampInputs v d) d }) (fun _ => rfl) (fun _ => rfl) h
          have hconn0 := connectionsOf_modify G this this (fun n => { n with
            cls := NodeClass.Basic name (clampInputs v d) d }) (fun _ => rfl) (fun _ => rfl)
          refine WellRecorded_modify _ this (fun n => { n with
            input_slots := n.input_slots.take (clampInputs v d).toNat })
            (fun _ => rfl) (fun _ => rfl) ?_
          apply shrinkOuter_preserves this node.input_slots
            (fun c => c.input_node ≠ c.output_node ∧ (c.output_node = this →
              ∀ slot ∈ node.input_slots.drop (clampInputs v d).toNat,
                strcmpEq c.input_slot slot.title = false))
            (fun c hc => hc.1) _ _ _ h0
          · intro c hcm
            rw [hconn0] at hcm
            obtain ⟨m, hm, _, hcm2⟩ := mem_connectionsOf hcm
            exact ⟨h.ends m hm c hcm2, hguard c hcm⟩
          · intro i hi slot hslot c hPc hm hout
            have hi2 := List.mem_range'_1.mp (List.mem_reverse.mp hi)
            have hmem := mem_drop_of_getElem? node.input_slots _ i slot hslot hi2.1
            have := hPc.2 hout slot hmem
            rw [hm] at this
            exact Bool.noConfusion this
        | Switch powered => rw [hc] at hs; exact Bool.noConfusion hs
        | Clock cycle last_cycle => rw [hc] at hs; exact Bool.noConfusion hs
        | Light => rw [hc] at hs; exact Bool.noConfusion hs
        | Test => rw [hc] at hs; exact Bool.noConfusion hs

/-- Every feasible and guarded sequence of mutations keeps the invariant. -/
theorem WellRecorded_run (ms : List Mutation) :
    ∀ G : Graph, WellRecorded G → feasibleRun ms G = true → guardedRun ms G = true →
      WellRecorded (runMutations ms G) := by
  induction ms with
  | nil => intro G h _ _; exact h
  | cons m rest ih =>
    intro G h hf hg
    simp only [feasibleRun, guardedRun, Bool.and_eq_true] at hf hg
    refine ih _ ?_ hf.2 hg.2
    cases m with
    | create node =>
      have := hf.1
      simp only [Mutation.feasible, decide_eq_true_eq] at this
      exact WellRecorded_create G node h this.1 this.2
    | add c =>
      have h1 := hf.1
      have h2 := hg.1
      simp only [Mutation.feasible, Mutation.guarded, decide_eq_true_eq] at h1 h2
      exact WellRecorded_add G c h h2.1 h1.1 h1.2 h2.2.1 h2.2.2
    | remove node deleted =>
      exact removeLoop_preserves node deleted _ 0 G [] h (fun c hc => by simp at hc)
    | delete it deleteKey => exact WellRecorded_deleteNode G it deleteKey h
    | resize this edit =>
      have h2 := hg.1
      simp only [Mutation.guarded, Bool.not_eq_true'] at h2
      exact WellRecorded_resize_guarded G this edit h h2

theorem WellRecorded_exactlyOnce (G : Graph) (h : WellRecorded G) : ExactlyOnce G := by
  intro m hm c hc
  have key : ∀ p, (p = c.input_node ∨ p = c.output_node) →
      (G.connectionsOf p).count c = 1 := by
    intro p hp
    obtain ⟨m3, hm3, hid3, hc3⟩ := h.both m hm c hc p hp
    have : G.connectionsOf p = m3.connections := by
      rw [← hid3]
      simp [Graph.connectionsOf, deref_of_mem_distinct G h.distinct m3 hm3]
    rw [this]
    exact List.count_eq_one_of_mem (h.nodup m3 hm3) hc3
  exact ⟨key _ (Or.inl rfl), key _ (Or.inr rfl)⟩

/-- C12, amended: starting from the empty graph, after every sequence of
node creations, additions of a connection that joins two different nodes
and is not yet recorded, removals of connections, node deletions and edits
of an input count (grow or shrink) that discard no slot whose label is the
`input_slot` of an outgoing connection of the edited gate, every connection
present in some list occurs exactly once in the list of its `input_node` and
exactly once in the list of its `output_node`. -/
theorem exactly_once_invariant (ms : List Mutation)
    (hf : feasibleRun ms [] = true) (hg : guardedRun ms [] = true) :
    ExactlyOnce (runMutations ms []) :=
  WellRecorded_exactlyOnce _ (WellRecorded_run ms [] WellRecorded_nil hf hg)

/-- Witness for the amended C12: the run `guardedExampleRun`, which grows
gate 1 to four inputs and shrinks it back to two while it holds an incoming
connection on the discarded slot C and an outgoing connection. -/
theorem exactly_once_invariant_witness : ExactlyOnce (runMutations guardedExampleRun []) :=
  exactly_once_invariant guardedExampleRun (by decide) (by decide)

/-! ## The symmetric-bookkeeping invariant -/

/-- The exact bookkeeping of `WellRecorded` implies the symmetric one. -/
theorem WellRecorded_symmetric (G : Graph) (h : WellRecorded G) : SymmetricBookkeeping G := by
  intro m hm c hc
  have hex := WellRecorded_exactlyOnce G h m hm c hc
  have hlive : ∀ p, (p = c.input_node ∨ p = c.output_node) → G.deref p ≠ none := by
    intro p hp
    obtain ⟨m3, hm3, hid3, _⟩ := h.both m hm c hc p hp
    rw [← hid3, deref_of_mem_distinct G h.distinct m3 hm3]
    exact fun h0 => Option.noConfusion h0
  exact ⟨h.owns m hm c hc, hlive _ (Or.inl rfl), hlive _ (Or.inr rfl),
    fun _ => hex.1.trans hex.2.symm⟩

/-- Every feasible and guarded run from the empty graph, in which no shrink
discards a slot whose label an outgoing connection of the gate carries, ends
in a graph with symmetric bookkeeping. -/
theorem guarded_run_symmetric (ms : List Mutation)
    (hf : feasibleRun ms [] = true) (hg : guardedRun ms [] = true) :
    SymmetricBookkeeping (runMutations ms []) :=
  WellRecorded_symmetric _ (WellRecorded_run ms [] WellRecorded_nil hf hg)

/-- C21 fails on the code.  Along `shrinkRun`, from the empty graph, the
invariant holds after each of the first seven mutations (creations, two
grows, two new connections).  The eighth, the shrink of gate 1 from three
inputs to two, breaks it: the connection from gate 1 to input C of gate 2
stays once in the list of gate 2 and is gone from the list of gate 1, and
the connection from the switch to input A of gate 1 stays once in the list
of the switch and is gone from the list of gate 1. -/
theorem shrink_breaks_bookkeeping :
    feasibleRun shrinkRun [] = true ∧
    (∀ k < 8, SymmetricBookkeeping (runMutations (shrinkRun.take k) [])) ∧
    ¬ SymmetricBookkeeping (runMutations shrinkRun []) ∧
    (runMutations shrinkRun []).connectionsOf 1 = [] ∧
    (runMutations shrinkRun []).connectionsOf 2 = [outWire 2 2 1] ∧
    (runMutations shrinkRun []).connectionsOf 3 = [wire 1 0 3] := by
  decide

/-! ## Removing a self-loop that is stored twice -/

/-- C11 fails on the code.  Along `selfLoopRemoveRun`, from the empty graph,
the list of the Test node is `[s, s, s, s, x]` with `s` the self-loop and
`x` the connection to the Not gate, whose list is `[x]`.  The removal of `s`
visits cell 1 when the list is `[s, s, x]`: the first call erases an `s`,
the reference then designates `x`, and the second call erases `x` from the
list of the Test node.  At the end the Test node holds `[s]`: an entry equal
to `s` is left, and `x`, which is not equal to `s`, is gone from this list
while the Not gate still holds it. -/
theorem remove_erases_other_connection :
    feasibleRun selfLoopRemoveRun [] = true ∧
    (runMutations (selfLoopRemoveRun.take 5) []).connectionsOf 1 =
      [selfLoop 1, selfLoop 1, selfLoop 1, selfLoop 1, testWire2 2 1] ∧
    (runMutations (selfLoopRemoveRun.take 5) []).connectionsOf 2 = [testWire2 2 1] ∧
    testWire2 2 1 ≠ selfLoop 1 ∧
    (removeBody 1 (fun c => c = selfLoop 1) 0
      (runMutations (selfLoopRemoveRun.take 5) []) []).1.connectionsOf 1 =
      [selfLoop 1, selfLoop 1, testWire2 2 1] ∧
    (runMutations selfLoopRemoveRun []).connectionsOf 1 = [selfLoop 1] ∧
    (runMutations selfLoopRemoveRun []).connectionsOf 2 = [testWire2 2 1] := by
  decide

end Circuitz
